import Mathlib

/-!
# SauceNAO match resolution and aggregation (`service/saucenao.go`)

A shallow embedding of `SaucenaoService.Search` and its helpers
`getPixivArtwork`, `getEHentaiGallery`, `getNHentaiGallery` and
`getDatabaseFromURL`.

Modelling conventions.

* Go strings are Lean `String`s; the string routines of the Go standard
  library that the code calls (`strings.Contains`, `strings.Replace`,
  `path.Base`, `path.Ext`, `regexp.ReplaceAllString` for the two fixed
  patterns) are written out over `List Char`.
* A `float64` similarity is a value of `F64`: NaN, the two infinities or a
  rational (every finite `float64` is one). The code only compares
  similarities; `F64.lt` and `F64.le` are Go's `<` and `<=`, both false as
  soon as one side is NaN.
* go-linq's `OrderByDescendingT(...).ToSlice` sorts with Go's `sort.Sort` and
  the comparison `x > y` on the keys. `sort.Sort` (Go 1.19 and later) runs
  `insertionSort` on a slice of at most 12 elements; that part is written
  out in `orderByDescendingT`. What it does with a longer slice is the field
  `sortLong` of `World`; the general theorems assume of it only what
  `World.Sound` states. `goSort` writes `sort.Sort` out in full (`pdqsort`);
  it is the `sortLong` of `pdqWorld`, in which the thirteen-match response is
  evaluated.
* The rest of what the service obtains from outside the process (the two
  gallery sites, Go's randomised `range` order over a map) is in `World` too.
* A Go run-time panic (index out of range) is the result `none`.
-/

namespace Saucenao

/-! ## String primitives -/

/-- Whether `p` is an initial segment of `s`. -/
def beginsWith : List Char → List Char → Bool
  | [], _ => true
  | _ :: _, [] => false
  | a :: p, b :: s => a == b && beginsWith p s

/-- Substring test on character lists: `sub` occurs somewhere in `s`. -/
def hasSubstr (sub : List Char) : List Char → Bool
  | [] => beginsWith sub []
  | c :: cs => beginsWith sub (c :: cs) || hasSubstr sub cs

/-- Go `strings.Contains(s, substr)`. -/
def contains (s substr : String) : Bool := hasSubstr substr.data s.data

/-- Go `path.Base`: the last element of the path, after trailing slashes are
stripped; `"."` for the empty path and `"/"` for a path of slashes only. -/
def pathBase (path : List Char) : List Char :=
  if path = [] then ['.']
  else
    let stripped := (path.reverse.dropWhile (fun c => c == '/')).reverse
    let last := (stripped.reverse.takeWhile (fun c => c != '/')).reverse
    if last = [] then ['/'] else last

/-- The loop of Go `path.Ext`, run over the reversed path: `acc` holds
`path[i+1:]`; the scan stops at a slash and returns `path[i:]` at a dot. -/
def extScan : List Char → List Char → List Char
  | [], _ => []
  | c :: r, acc =>
    if c = '/' then [] else if c = '.' then c :: acc else extScan r (c :: acc)

/-- Go `path.Ext`: the suffix beginning at the final dot of the final
element of the path, empty if there is no dot. -/
def pathExt (path : List Char) : List Char := extScan path.reverse []

/-- Go `strings.Replace(s, old, "", 1)`: the first occurrence of `old`
removed (an empty `old` matches at the start and removes nothing). -/
def removeFirst (old : List Char) : List Char → List Char
  | [] => []
  | c :: cs =>
    if beginsWith old (c :: cs) then (c :: cs).drop old.length
    else c :: removeFirst old cs

/-- Go `regexp.ReplaceAllString` for a pattern that never matches the empty
string. `find s` is the match of the pattern at the start of `s`, if any, as
the expanded replacement text and the length of the matched text; matches are
taken leftmost and do not overlap. The counter is the number of characters of
the current match still to be consumed. -/
def replaceAllGo (find : List Char → Option (List Char × Nat)) : Nat → List Char → List Char
  | _, [] => []
  | k + 1, _ :: cs => replaceAllGo find k cs
  | 0, c :: cs =>
    match find (c :: cs) with
    | some (repl, n) => repl ++ replaceAllGo find (n - 1) cs
    | none => c :: replaceAllGo find 0 cs

/-- One item of a pattern: a literal character, the regular-expression dot
(any character but a newline) or a decimal digit `[0-9]`. -/
inductive Pat where
  | lit (c : Char)
  | dot
  | digit
  deriving DecidableEq, Repr

/-- Whether a pattern item accepts a character. -/
def Pat.ok : Pat → Char → Bool
  | .lit a, c => a == c
  | .dot, c => c != '\n'
  | .digit, c => c.isDigit

/-- Matches a list of pattern items at the start of `s`; returns what
follows the matched text. -/
def matchPat : List Pat → List Char → Option (List Char)
  | [], s => some s
  | _ :: _, [] => none
  | p :: ps, c :: cs => if p.ok c then matchPat ps cs else none

/-- The text matched by a greedy `[0-9]+` right after a match of `shape` at
the start of `s`. -/
def matchDigits (shape : List Pat) (s : List Char) : Option (List Char) :=
  match matchPat shape s with
  | none => none
  | some t =>
    let ds := t.takeWhile Char.isDigit
    if ds = [] then none else some ds

/-- The fixed part of the pattern `_p[0-9]+`. -/
def pageShape : List Pat := [Pat.lit '_', Pat.lit 'p']

/-- The match of `_p[0-9]+` at the start of `s`, replaced by the empty
string. -/
def pageMatch (s : List Char) : Option (List Char × Nat) :=
  (matchDigits pageShape s).map (fun ds => ([], pageShape.length + ds.length))

/-- `regexp.MustCompile("_p[0-9]+").ReplaceAllString(s, "")`. -/
def stripPage (s : List Char) : List Char := replaceAllGo pageMatch 0 s

/-- The pattern items of a text in which every `.` is the
regular-expression dot and every other character a literal. -/
def patOf : List Char → List Pat
  | [] => []
  | c :: cs => (if c = '.' then Pat.dot else Pat.lit c) :: patOf cs

/-- The fixed part of
`www.pixiv.net/member_illust.php\?mode=medium&illust_id=([0-9]+)`: the three
unescaped dots match any character, the escaped `\?` is a literal. -/
def legacyShape : List Pat :=
  patOf "www.pixiv.net/member_illust.php".data ++
    ("?mode=medium&illust_id=".data.map Pat.lit)

/-- The replacement text before the captured id. -/
def artworksHead : List Char := "www.pixiv.net/artworks/".data

/-- The match of the legacy pattern at the start of `s`: the captured digits
(group 1) are appended to `www.pixiv.net/artworks/`. -/
def legacyMatch (s : List Char) : Option (List Char × Nat) :=
  (matchDigits legacyShape s).map
    (fun ds => (artworksHead ++ ds, legacyShape.length + ds.length))

/-- The second `ReplaceAllString` of `getPixivArtwork`: every match of the
legacy pattern rewritten to `www.pixiv.net/artworks/${1}`. -/
def rewriteLegacy (s : List Char) : List Char := replaceAllGo legacyMatch 0 s

/-! ## `getPixivArtwork` -/

/-- The function `getPixivArtwork` over character lists. -/
def getPixivArtworkL (extURL : List Char) : List Char :=
  let extURL :=
    if hasSubstr "https://i.pximg.net".data extURL then
      let fileName := pathBase extURL
      let noExt := removeFirst (pathExt fileName) fileName
      let pixivID := stripPage noExt
      "https://www.pixiv.net/artworks/".data ++ pixivID
    else extURL
  rewriteLegacy extURL

/-- The function `SaucenaoService.getPixivArtwork`. -/
def getPixivArtwork (extURL : String) : String := String.mk (getPixivArtworkL extURL.data)

/-! ## `getDatabaseFromURL` -/

/-- The function `SaucenaoService.getDatabaseFromURL`: the chain of
`strings.Contains` tests, in source order. -/
def getDatabaseFromURL (url : String) : String :=
  if contains url "www.pixiv.net" then "Pixiv"
  else if contains url "danbooru.donmai.us" then "Danbooru"
  else if contains url "gelbooru.com" then "Gelbooru"
  else if contains url "chan.sankakucomplex.com" then "Sankaku"
  else if contains url "anime-pictures.net" then "Anime Pictures"
  else if contains url "i.redd.it" then "Reddit"
  else if contains url "yande.re" then "Yandere"
  else if contains url "www.imdb.com" then "IMDB"
  else if contains url "deviantart.com" then "Deviantart"
  else if contains url "twitter.com" then "Twitter"
  else if contains url "nijie.info" then "Nijie"
  else if contains url "pawoo.net" then "Pawoo"
  else if contains url "seiga.nicovideo.jp" then "Seiga Nicovideo"
  else if contains url "tumblr.com" then "Tumblr"
  else if contains url "anidb.net" then "Anidb"
  else if contains url "mangadex.org" then "MangaDex"
  else if contains url "mangaupdates.com" then "MangaUpdates"
  else if contains url "myanimelist.net" then "MyAnimeList"
  else if contains url "furaffinity.net" then "FurAffinity"
  else if contains url "artstation.com" then "ArtStation"
  else if contains url "bcy.net" then "?????????"
  else if contains url "konachan.com" then "Konachan"
  else if contains url "fanbox.cc" then "Pixiv Fanbox"
  else if contains url "e621.net" then "e621"
  else if contains url "exhentai.org" then "exhentai"
  else if contains url "e-hentai.org" then "e-hentai"
  else if contains url "nhentai.net" then "nhentai"
  else if contains url "fantia.jp" then "Fantia"
  else "Unknown"

/-! ## Data read and produced by `Search` -/

/-- The table `saucenaoDatabaseIndexList`. -/
def saucenaoDatabaseIndexList : List (String × Int) :=
  [("h-mags", 0), ("h-anime", 1), ("hcg", 2), ("ddb-objects", 3), ("ddb-samples", 4),
   ("Pixiv", 5), ("PixivHistorical", 6), ("anime", 7), ("NicoNico Seiga", 8),
   ("Danbooru", 9), ("drawr", 10), ("Nijie", 11), ("yande.re", 12), ("animeop", 13),
   ("IMDb", 14), ("Shutterstock", 15), ("FAKKU", 16), ("nhentai", 18), ("2d_market", 19),
   ("medibang", 20), ("Anime", 21), ("H-Anime", 22), ("Movies", 23), ("Shows", 24),
   ("gelbooru", 25), ("konochan", 26), ("sankaku", 27), ("anime-pictures", 28),
   ("e621", 29), ("idol complex", 30), ("bcy illust", 31), ("bcy cosplay", 32),
   ("portalgraphics", 33), ("dA", 34), ("pawoo", 35), ("madokami", 36), ("mangadex", 37),
   ("ehentai", 38), ("ArtStation", 39), ("FurAffinity", 40), ("Twitter", 41),
   ("Furry Network", 42)]

/-- The Go map read `saucenaoDatabaseIndexList[name]` (zero for a missing key). -/
def databaseIndex (name : String) : Int :=
  match saucenaoDatabaseIndexList.find? (fun e => e.1 = name) with
  | some e => e.2
  | none => 0

/-- A `float64` value, as far as comparisons can tell: NaN, minus infinity, a
finite value or plus infinity. -/
inductive F64 where
  | nan
  | negInf
  | fin (q : ℚ)
  | posInf
  deriving DecidableEq

/-- Go's `a < b` on `float64`: false as soon as one side is NaN. -/
def F64.lt : F64 → F64 → Bool
  | .negInf, .fin _ => true
  | .negInf, .posInf => true
  | .fin a, .fin b => decide (a < b)
  | .fin _, .posInf => true
  | _, _ => false

/-- Go's `a <= b` on `float64`: false as soon as one side is NaN. -/
def F64.le : F64 → F64 → Bool
  | .nan, _ => false
  | _, .nan => false
  | .negInf, _ => true
  | _, .posInf => true
  | .fin a, .fin b => decide (a ≤ b)
  | _, _ => false

/-- The local type `ArtworkData` of `Search`. -/
structure ArtworkData where
  Similarity : F64
  URL : String
  deriving DecidableEq

/-- One element of `results`, as the fields `Search` reads from it through
gjson: `header.similarity`, `header.index_id`, `data.ext_urls`,
`data.eng_name`, `data.jp_name` (a missing field reads as its zero value). -/
structure RawMatch where
  similarity : F64
  index_id : Int
  ext_urls : List String
  eng_name : String
  jp_name : String
  deriving DecidableEq

/-- The provider response, as the fields `Search` reads from it. -/
structure Response where
  minimum_similarity : F64
  short_remaining : Int
  long_remaining : Int
  results : List RawMatch
  deriving DecidableEq

/-- The type `SaucenaoResult`. The Go map `SearchResult` is an association
list with distinct keys. -/
structure SaucenaoResult where
  Similarity : F64
  ShortRemain : Int
  LongRemain : Int
  SearchResult : List (String × String)
  deriving DecidableEq

/-- One element selected by `.glname a` on an e-hentai listing: the text of
its first `.glink` descendant and its `href` attribute, if it has one. -/
structure GalleryAnchor where
  glink : String
  href : Option String
  deriving DecidableEq

/-- What `Search` obtains from outside the process.

* `ehentai i name`: the listing fetched and parsed for the title `name` while
  the `i`-th match is resolved (the request URL is a function of `name`), as
  the anchors selected by `.glname a` in document order; `none` when the
  request fails, the status is not 200 or the document cannot be parsed.
* `nhentai i name`: likewise for nhentai; `some h` holds the result of
  `doc.Find(".gallery a").First().Attr("href")`.
* `rangeOrder`: the order in which `range` visits the entries of the map
  `result` (Go randomises it).
* `sortLong`: what `sort.Sort`, called by go-linq with the comparison
  `x.Similarity > y.Similarity`, makes of a slice of more than 12 elements. -/
structure World where
  ehentai : Nat → String → Option (List GalleryAnchor)
  nhentai : Nat → String → Option (Option String)
  rangeOrder : List (Int × List ArtworkData) → List (Int × List ArtworkData)
  sortLong : List ArtworkData → List ArtworkData

/-! ## The gallery lookups -/

/-- The title both gallery lookups search for: `name := engName`, replaced by
`jpName` when empty. -/
def lookupName (engName jpName : String) : String :=
  if engName = "" then jpName else engName

/-- The function `getEHentaiGallery`; `fetch` is the request for the title. -/
def getEHentaiGallery (fetch : String → Option (List GalleryAnchor))
    (engName jpName : String) : String :=
  if engName = "" ∧ jpName = "" then ""
  else
    let name := lookupName engName jpName
    match fetch name with
    | none => ""
    | some anchors =>
      anchors.foldl
        (fun result selection => if selection.glink = name then selection.href.getD "" else result)
        ""

/-- The constant `nhentaiURL`. -/
def nhentaiURL : String := "https://nhentai.net"

/-- The function `getNHentaiGallery`; `fetch` is the request for the title. -/
def getNHentaiGallery (fetch : String → Option (Option String))
    (engName jpName : String) : String :=
  if engName = "" ∧ jpName = "" then ""
  else
    let name := lookupName engName jpName
    match fetch name with
    | none => ""
    | some none => ""
    | some (some result) => nhentaiURL ++ result

/-! ## `Search` -/

/-- Outcome of the `switch dbIndex` statement of `Search` for one match. -/
inductive Resolution where
  | panic
  | drop
  | url (artworkURL : String)
  deriving DecidableEq

/-- The `switch dbIndex` statement of `Search`, for the match at position `i`:
`panic` is the out-of-range read `extURLs[0]`, `drop` is the `continue` of the
default case. -/
def resolveURL (w : World) (i : Nat) (r : RawMatch) : Resolution :=
  if r.index_id = databaseIndex "ehentai" then
    .url (getEHentaiGallery (w.ehentai i) r.eng_name r.jp_name)
  else if r.index_id = databaseIndex "nhentai" then
    .url (getNHentaiGallery (w.nhentai i) r.eng_name r.jp_name)
  else if r.index_id = databaseIndex "Pixiv" then
    match r.ext_urls with
    | [] => .panic
    | u :: _ => .url (getPixivArtwork u)
  else
    match r.ext_urls with
    | u :: _ => .url u
    | [] => .drop

/-- The statement `result[dbIndex] = append(result[dbIndex], data)` on the
map `result`, kept as an association list with distinct keys. -/
def appendAt : List (Int × List ArtworkData) → Int → ArtworkData → List (Int × List ArtworkData)
  | [], k, a => [(k, [a])]
  | (k', l) :: m, k, a =>
    if k' = k then (k', l ++ [a]) :: m else (k', l) :: appendAt m k a

/-- The first loop of `Search` from position `i` on: `none` if an iteration
panics, otherwise the final map `result`. -/
def searchLoop (w : World) (minimumSimilarity : F64) :
    Nat → List RawMatch → List (Int × List ArtworkData) → Option (List (Int × List ArtworkData))
  | _, [], result => some result
  | i, r :: rs, result =>
    if F64.lt r.similarity minimumSimilarity then
      searchLoop w minimumSimilarity (i + 1) rs result
    else
      match resolveURL w i r with
      | .panic => none
      | .drop => searchLoop w minimumSimilarity (i + 1) rs result
      | .url artworkURL =>
        if artworkURL = "" then searchLoop w minimumSimilarity (i + 1) rs result
        else
          searchLoop w minimumSimilarity (i + 1) rs
            (appendAt result r.index_id ⟨r.similarity, artworkURL⟩)

/-- The `less` function go-linq builds for `OrderByDescending` on a `float64`
key: `x` goes before `y` when `x.Similarity > y.Similarity`. -/
def lessDesc (x y : ArtworkData) : Bool := F64.lt y.Similarity x.Similarity

/-- The inner loop of Go's `insertionSort`: the new element `x` is swapped
leftwards while `Less(j, j-1)` holds. `left` is the part of the slice before
`x`, last element first. -/
def sinkLeft (x : ArtworkData) : List ArtworkData → List ArtworkData
  | [] => [x]
  | y :: left => if lessDesc x y then y :: sinkLeft x left else x :: y :: left

/-- Go's `insertionSort` with the comparison of go-linq, over a whole slice. -/
def insertionSort (data : List ArtworkData) : List ArtworkData :=
  (data.foldl (fun left x => sinkLeft x left) []).reverse

/-- The constant `maxInsertion` of `sort.Sort`. -/
def maxInsertion : Nat := 12

/-- The call `linq.From(artworks).OrderByDescendingT(...).ToSlice(&ordered)`:
`sort.Sort` with the comparison `lessDesc`, which is `insertionSort` on a
slice of at most `maxInsertion` elements. -/
def orderByDescendingT (w : World) (artworks : List ArtworkData) : List ArtworkData :=
  if artworks.length ≤ maxInsertion then insertionSort artworks else w.sortLong artworks

/-- The body of the second loop up to `fixed`: `ordered[0].URL` when the group
has more than one element, `artworks[0].URL` otherwise (`none`: the read is
out of range). -/
def fixedURL (w : World) (artworks : List ArtworkData) : Option String :=
  if artworks.length > 1 then (orderByDescendingT w artworks).head?.map ArtworkData.URL
  else artworks.head?.map ArtworkData.URL

/-- The Go map write `searchResult[key] = value`. -/
def mapSet : List (String × String) → String → String → List (String × String)
  | [], key, value => [(key, value)]
  | (k, v) :: m, key, value =>
    if k = key then (k, value) :: m else (k, v) :: mapSet m key value

/-- The second loop of `Search` over the groups in the order given. -/
def dedupe (w : World) :
    List (Int × List ArtworkData) → List (String × String) → Option (List (String × String))
  | [], searchResult => some searchResult
  | (_, artworks) :: groups, searchResult =>
    match fixedURL w artworks with
    | none => none
    | some fixed => dedupe w groups (mapSet searchResult (getDatabaseFromURL fixed) fixed)

/-- The function `SaucenaoService.Search` from the parsed response on; `none`
is a run-time panic. -/
def Search (w : World) (resp : Response) : Option SaucenaoResult :=
  match searchLoop w resp.minimum_similarity 0 resp.results [] with
  | none => none
  | some result =>
    match dedupe w (w.rangeOrder result) [] with
    | none => none
    | some searchResult =>
      some
        { Similarity := resp.minimum_similarity
          ShortRemain := resp.short_remaining
          LongRemain := resp.long_remaining
          SearchResult := searchResult }

/-- No similarity of the list is NaN. -/
def NaNFree (l : List ArtworkData) : Prop := ∀ a ∈ l, a.Similarity ≠ F64.nan

/-- What the code relies on from Go: `range` visits every entry of the map
exactly once, `sort.Sort` only swaps elements, and on keys without NaN (where
the comparison is a strict weak order) it leaves them in descending order. -/
def World.Sound (w : World) : Prop :=
  (∀ m, (w.rangeOrder m).Perm m) ∧
    (∀ l, (w.sortLong l).Perm l) ∧
      ∀ l, NaNFree l →
        (w.sortLong l).Pairwise (fun a b => F64.le b.Similarity a.Similarity = true)

/-- A world with no gallery site reachable and `range` in insertion order.
Long slices are ordered by insertion as well, which meets the contract
`World.Sound`; no response used below has a group of more than 12 matches. -/
def offlineWorld : World where
  ehentai := fun _ _ => none
  nhentai := fun _ _ => none
  rangeOrder := fun m => m
  sortLong := insertionSort

/-! ## The classifier tables -/

/-- First entry of a table of (pattern, name) pairs whose pattern is a
substring of the URL; `"Unknown"` when there is none. -/
def classifyByTable : List (String × String) → String → String
  | [], _ => "Unknown"
  | (pattern, name) :: table, url =>
    if contains url pattern then name else classifyByTable table url

/-- The canonical classifier table as the specification lists it. -/
def specClassifierTable : List (String × String) :=
  [("pixiv.net", "Pixiv"), ("danbooru.donmai.us", "Danbooru"), ("gelbooru.com", "Gelbooru"),
   ("chan.sankakucomplex.com", "Sankaku"), ("anime-pictures.net", "Anime Pictures"),
   ("i.redd.it", "Reddit"), ("yande.re", "Yandere"), ("imdb.com", "IMDB"),
   ("deviantart.com", "Deviantart"), ("twitter.com", "Twitter"), ("nijie.info", "Nijie"),
   ("pawoo.net", "Pawoo"), ("seiga.nicovideo.jp", "Seiga Nicovideo"), ("tumblr.com", "Tumblr"),
   ("anidb.net", "Anidb"), ("mangadex.org", "MangaDex"), ("mangaupdates.com", "MangaUpdates"),
   ("myanimelist.net", "MyAnimeList"), ("furaffinity.net", "FurAffinity"),
   ("artstation.com", "ArtStation"), ("bcy.net", "BCY"), ("konachan.com", "Konachan"),
   ("fanbox.cc", "Pixiv Fanbox"), ("e621.net", "e621"), ("exhentai.org", "exhentai"),
   ("e-hentai.org", "e-hentai"), ("nhentai.net", "nhentai"), ("fantia.jp", "Fantia")]

/-- The classifier the specification describes: first match in its table. -/
def specClassify (url : String) : String := classifyByTable specClassifierTable url

/-- The patterns and names of `getDatabaseFromURL` in source order. It differs
from `specClassifierTable` in the patterns `www.pixiv.net` and `www.imdb.com`
and in the name returned for `bcy.net`. -/
def sourceClassifierTable : List (String × String) :=
  [("www.pixiv.net", "Pixiv"), ("danbooru.donmai.us", "Danbooru"), ("gelbooru.com", "Gelbooru"),
   ("chan.sankakucomplex.com", "Sankaku"), ("anime-pictures.net", "Anime Pictures"),
   ("i.redd.it", "Reddit"), ("yande.re", "Yandere"), ("www.imdb.com", "IMDB"),
   ("deviantart.com", "Deviantart"), ("twitter.com", "Twitter"), ("nijie.info", "Nijie"),
   ("pawoo.net", "Pawoo"), ("seiga.nicovideo.jp", "Seiga Nicovideo"), ("tumblr.com", "Tumblr"),
   ("anidb.net", "Anidb"), ("mangadex.org", "MangaDex"), ("mangaupdates.com", "MangaUpdates"),
   ("myanimelist.net", "MyAnimeList"), ("furaffinity.net", "FurAffinity"),
   ("artstation.com", "ArtStation"), ("bcy.net", "?????????"), ("konachan.com", "Konachan"),
   ("fanbox.cc", "Pixiv Fanbox"), ("e621.net", "e621"), ("exhentai.org", "exhentai"),
   ("e-hentai.org", "e-hentai"), ("nhentai.net", "nhentai"), ("fantia.jp", "Fantia")]

/-- The link the specification selects on an e-hentai listing: the `href` of
the first anchor in document order whose label equals the title, empty when
there is none. -/
def firstLabelled (anchors : List GalleryAnchor) (title : String) : String :=
  match anchors.find? (fun a => a.glink = title) with
  | some a => a.href.getD ""
  | none => ""

/-- The `href` of the last anchor in document order whose label equals the
title, empty when there is none or when that anchor has no `href`. -/
def lastLabelled (anchors : List GalleryAnchor) (title : String) : String :=
  match anchors.reverse.find? (fun a => a.glink = title) with
  | some a => a.href.getD ""
  | none => ""

/-- The resolved matches of the first loop of `Search`, in provider order,
each with its database index: the matches at or above the floor whose
resolution gave a non-empty URL. -/
def resolvedMatches (w : World) (minimumSimilarity : F64) :
    Nat → List RawMatch → List (Int × ArtworkData)
  | _, [] => []
  | i, r :: rs =>
    if F64.lt r.similarity minimumSimilarity then
      resolvedMatches w minimumSimilarity (i + 1) rs
    else
      match resolveURL w i r with
      | .url artworkURL =>
        if artworkURL = "" then resolvedMatches w minimumSimilarity (i + 1) rs
        else
          (r.index_id, ⟨r.similarity, artworkURL⟩) ::
            resolvedMatches w minimumSimilarity (i + 1) rs
      | _ => resolvedMatches w minimumSimilarity (i + 1) rs

/-- The resolved matches of one database index, in provider order. -/
def indexGroup (k : Int) (resolved : List (Int × ArtworkData)) : List ArtworkData :=
  (resolved.filter (fun e => e.1 = k)).map Prod.snd

/-- The Go map read `result[k]` (the empty slice for a missing key). -/
def getGroup : List (Int × List ArtworkData) → Int → List ArtworkData
  | [], _ => []
  | (k', l) :: m, k => if k' = k then l else getGroup m k

/-- A response with floor 60 in which database index 9 yields a Pixiv URL
(similarity 95) and a Danbooru URL (similarity 90), and database index 12
yields a Danbooru URL (similarity 80). -/
def mixedIndexResponse : Response :=
  { minimum_similarity := F64.fin 60
    short_remaining := 0
    long_remaining := 0
    results :=
      [⟨F64.fin 95, 9, ["https://www.pixiv.net/artworks/1"], "", ""⟩,
       ⟨F64.fin 90, 9, ["https://danbooru.donmai.us/posts/2"], "", ""⟩,
       ⟨F64.fin 80, 12, ["https://danbooru.donmai.us/posts/3"], "", ""⟩] }

/-- A response with floor 60 in which two Danbooru URLs share the similarity
90: the first in provider order under database index 9, next to a Pixiv URL
of similarity 95, the other under database index 12. -/
def tiedSourceResponse : Response :=
  { minimum_similarity := F64.fin 60
    short_remaining := 0
    long_remaining := 0
    results :=
      [⟨F64.fin 90, 9, ["https://danbooru.donmai.us/posts/1"], "", ""⟩,
       ⟨F64.fin 95, 9, ["https://www.pixiv.net/artworks/2"], "", ""⟩,
       ⟨F64.fin 90, 12, ["https://danbooru.donmai.us/posts/3"], "", ""⟩] }

/-- A response with floor 60 and two matches of database index 9 that share
the similarity 90, after one below the floor. -/
def tiedIndexResponse : Response :=
  { minimum_similarity := F64.fin 60
    short_remaining := 0
    long_remaining := 0
    results :=
      [⟨F64.fin 50, 9, ["https://danbooru.donmai.us/posts/0"], "", ""⟩,
       ⟨F64.fin 90, 9, ["https://danbooru.donmai.us/posts/1"], "", ""⟩,
       ⟨F64.fin 90, 9, ["https://danbooru.donmai.us/posts/2"], "", ""⟩] }

/-- A mismatch between a list of pattern items and a known text, within
their common length. -/
def clash : List Pat → List Char → Bool
  | p :: ps, c :: cs => !p.ok c || clash ps cs
  | _, _ => false

/-- The pattern clashes with the known text at every position of the text. -/
def clashEverywhere (shape : List Pat) : List Char → Bool
  | [] => true
  | c :: cs => clash shape (c :: cs) && clashEverywhere shape cs

/-- Every non-empty suffix of the pattern clashes with the known text. -/
def suffixesClash : List Pat → List Char → Bool
  | [], _ => true
  | p :: ps, known => clash (p :: ps) known && suffixesClash ps known

/-- The legacy pattern up to and including the first digit of the id. -/
def legacyFull : List Pat := legacyShape ++ [Pat.digit]

/-- The host that marks a Pixiv image URL in `getPixivArtwork`. -/
def pximgHost : List Char := "https://i.pximg.net".data

/-- The text `getPixivArtwork` puts before the id. -/
def artworksURL : List Char := "https://www.pixiv.net/artworks/".data

/-- The offline world with `range` visiting the map in reverse insertion
order. -/
def reverseRangeWorld : World :=
  { offlineWorld with rangeOrder := List.reverse }

/-- A response with floor 60 in which database indices 9 and 12 both yield a
Danbooru URL, with similarities 95 and 90. -/
def twoIndexResponse : Response :=
  { minimum_similarity := F64.fin 60
    short_remaining := 0
    long_remaining := 0
    results :=
      [⟨F64.fin 95, 9, ["https://danbooru.donmai.us/posts/1"], "", ""⟩,
       ⟨F64.fin 90, 12, ["https://danbooru.donmai.us/posts/2"], "", ""⟩] }

/-! ## `sort.Sort` beyond `maxInsertion` elements -/

/-- The call `data.Less(i, j)` of go-linq's `sorter` (an index outside the
slice does not occur in `sort.Sort`). -/
def lessAt (data : List ArtworkData) (i j : Nat) : Bool :=
  match data[i]?, data[j]? with
  | some x, some y => lessDesc x y
  | _, _ => false

/-- The call `data.Swap(i, j)` of go-linq's `sorter`. -/
def swapAt (data : List ArtworkData) (i j : Nat) : List ArtworkData :=
  match data[i]?, data[j]? with
  | some x, some y => (data.set i y).set j x
  | _, _ => data

/-- Go's `insertionSort(data, a, b)`. -/
def insertionSortRange (data : List ArtworkData) (a b : Nat) : List ArtworkData :=
  data.take a ++ insertionSort ((data.drop a).take (b - a)) ++ data.drop b

/-- Go's `siftDown(data, lo, hi, first)`; the loop on `root` runs on fuel. -/
def siftDown (hi first : Nat) : Nat → List ArtworkData → Nat → List ArtworkData
  | 0, data, _ => data
  | fuel + 1, data, root =>
    let child := 2 * root + 1
    if child ≥ hi then data
    else
      let child :=
        if child + 1 < hi ∧ lessAt data (first + child) (first + child + 1) = true then child + 1
        else child
      if lessAt data (first + root) (first + child) = false then data
      else siftDown hi first fuel (swapAt data (first + root) (first + child)) child

/-- Go's `heapSort(data, a, b)`. -/
def heapSort (data : List ArtworkData) (a b : Nat) : List ArtworkData :=
  let first := a
  let hi := b - a
  let built :=
    (List.range ((hi - 1) / 2 + 1)).reverse.foldl
      (fun data i => siftDown hi first hi data i) data
  (List.range hi).reverse.foldl
    (fun data i => siftDown i first hi (swapAt data first (first + i)) 0) built

/-- The type `sortedHint` of `sort.Sort`. -/
inductive SortedHint where
  | unknownHint
  | increasingHint
  | decreasingHint
  deriving DecidableEq

/-- Go's `order2`: the two indices ordered by `Less`, and the swap counter. -/
def order2 (data : List ArtworkData) (a b swaps : Nat) : Nat × Nat × Nat :=
  if lessAt data b a then (b, a, swaps + 1) else (a, b, swaps)

/-- Go's `median`: the index of the median of three, and the swap counter. -/
def median (data : List ArtworkData) (a b c swaps : Nat) : Nat × Nat :=
  let (a, b, swaps) := order2 data a b swaps
  let (b, _, swaps) := order2 data b c swaps
  let (_, b, swaps) := order2 data a b swaps
  (b, swaps)

/-- Go's `medianAdjacent`. -/
def medianAdjacent (data : List ArtworkData) (a swaps : Nat) : Nat × Nat :=
  median data (a - 1) a (a + 1) swaps

/-- Go's `choosePivot(data, a, b)`. -/
def choosePivot (data : List ArtworkData) (a b : Nat) : Nat × SortedHint :=
  let l := b - a
  let i := a + l / 4 * 1
  let j := a + l / 4 * 2
  let k := a + l / 4 * 3
  let (j, swaps) :=
    if l ≥ 8 then
      if l ≥ 50 then
        let (i, swaps) := medianAdjacent data i 0
        let (j, swaps) := medianAdjacent data j swaps
        let (k, swaps) := medianAdjacent data k swaps
        median data i j k swaps
      else median data i j k 0
    else (j, 0)
  if swaps = 0 then (j, SortedHint.increasingHint)
  else if swaps = 12 then (j, SortedHint.decreasingHint)
  else (j, SortedHint.unknownHint)

/-- Go's `reverseRange(data, a, b)`. -/
def reverseRange (data : List ArtworkData) (a b : Nat) : List ArtworkData :=
  data.take a ++ ((data.drop a).take (b - a)).reverse ++ data.drop b

/-- The loop `for i < b && !data.Less(i, i-1) { i++ }`. -/
def skipOrdered (data : List ArtworkData) (b : Nat) : Nat → Nat → Nat
  | 0, i => i
  | fuel + 1, i => if i < b ∧ lessAt data i (i - 1) = false then skipOrdered data b fuel (i + 1) else i

/-- The loop `for j := i - 1; j >= 1; j--` of `partialInsertionSort`. -/
def shiftSmaller : Nat → List ArtworkData → List ArtworkData
  | 0, data => data
  | j + 1, data =>
    if lessAt data (j + 1) j = false then data else shiftSmaller j (swapAt data (j + 1) j)

/-- The loop `for j := i + 1; j < b; j++` of `partialInsertionSort`. -/
def shiftGreater (b : Nat) : Nat → List ArtworkData → Nat → List ArtworkData
  | 0, data, _ => data
  | fuel + 1, data, j =>
    if j < b then
      if lessAt data j (j - 1) = false then data
      else shiftGreater b fuel (swapAt data j (j - 1)) (j + 1)
    else data

/-- Go's `partialInsertionSort(data, a, b)`: the slice and whether it is
sorted at the end; the loop on `j < maxSteps` runs on the counter. -/
def partialInsertionSort (a b : Nat) : Nat → List ArtworkData → Nat → List ArtworkData × Bool
  | 0, data, _ => (data, false)
  | steps + 1, data, i =>
    let i := skipOrdered data b b i
    if i = b then (data, true)
    else if b - a < 50 then (data, false)
    else
      let data := swapAt data i (i - 1)
      let data := if i - a ≥ 2 then shiftSmaller (i - 1) data else data
      let data := if b - i ≥ 2 then shiftGreater b b data (i + 1) else data
      partialInsertionSort a b steps data i

/-- The loop `for i <= j && data.Less(i, a) { i++ }` of `partition`. -/
def scanUp (data : List ArtworkData) (a j : Nat) : Nat → Nat → Nat
  | 0, i => i
  | fuel + 1, i => if i ≤ j ∧ lessAt data i a = true then scanUp data a j fuel (i + 1) else i

/-- The loop `for i <= j && !data.Less(j, a) { j-- }` of `partition`. -/
def scanDown (data : List ArtworkData) (a i : Nat) : Nat → Nat → Nat
  | 0, j => j
  | fuel + 1, j => if i ≤ j ∧ lessAt data j a = false then scanDown data a i fuel (j - 1) else j

/-- The main loop of Go's `partition`. -/
def partitionLoop (a : Nat) : Nat → List ArtworkData → Nat → Nat → List ArtworkData × Nat
  | 0, data, _, j => (data, j)
  | fuel + 1, data, i, j =>
    let i := scanUp data a j (j + 1) i
    let j := scanDown data a i (j + 1) j
    if i > j then (data, j)
    else partitionLoop a fuel (swapAt data i j) (i + 1) (j - 1)

/-- Go's `partition(data, a, b, pivot)`: the slice, the new pivot index and
`alreadyPartitioned`. -/
def partition (data : List ArtworkData) (a b pivot : Nat) : List ArtworkData × Nat × Bool :=
  let data := swapAt data a pivot
  let i := scanUp data a (b - 1) b (a + 1)
  let j := scanDown data a i b (b - 1)
  if i > j then (swapAt data j a, j, true)
  else
    let (data, j) := partitionLoop a b (swapAt data i j) (i + 1) (j - 1)
    (swapAt data j a, j, false)

/-- The loop `for i <= j && !data.Less(a, i) { i++ }` of `partitionEqual`. -/
def scanUpEqual (data : List ArtworkData) (a j : Nat) : Nat → Nat → Nat
  | 0, i => i
  | fuel + 1, i =>
    if i ≤ j ∧ lessAt data a i = false then scanUpEqual data a j fuel (i + 1) else i

/-- The loop `for i <= j && data.Less(a, j) { j-- }` of `partitionEqual`. -/
def scanDownEqual (data : List ArtworkData) (a i : Nat) : Nat → Nat → Nat
  | 0, j => j
  | fuel + 1, j =>
    if i ≤ j ∧ lessAt data a j = true then scanDownEqual data a i fuel (j - 1) else j

/-- The main loop of Go's `partitionEqual`. -/
def partitionEqualLoop (a : Nat) : Nat → List ArtworkData → Nat → Nat → List ArtworkData × Nat
  | 0, data, i, _ => (data, i)
  | fuel + 1, data, i, j =>
    let i := scanUpEqual data a j (j + 1) i
    let j := scanDownEqual data a i (j + 1) j
    if i > j then (data, i)
    else partitionEqualLoop a fuel (swapAt data i j) (i + 1) (j - 1)

/-- Go's `partitionEqual(data, a, b, pivot)`. -/
def partitionEqual (data : List ArtworkData) (a b pivot : Nat) : List ArtworkData × Nat :=
  partitionEqualLoop a b (swapAt data a pivot) (a + 1) (b - 1)

/-- Go's `bits.Len`. -/
def bitsLen : Nat → Nat → Nat
  | 0, _ => 0
  | fuel + 1, n => if n = 0 then 0 else 1 + bitsLen fuel (n / 2)

/-- The method `Next` of the `xorshift` generator of `sort.Sort`, on `uint64`,
with the shift constants 13, 7 and 17 (Go releases differ in them, so the
generator is a parameter of `goSort`). -/
def xorshiftNext (r : Nat) : Nat :=
  let r := Nat.xor r (r * 2 ^ 13 % 2 ^ 64)
  let r := Nat.xor r (r / 2 ^ 7)
  Nat.xor r (r * 2 ^ 17 % 2 ^ 64)

/-- Go's `breakPatterns(data, a, b)`; `next` is the method `Next` of the
generator. -/
def breakPatterns (next : Nat → Nat) (data : List ArtworkData) (a b : Nat) :
    List ArtworkData :=
  let length := b - a
  if length ≥ 8 then
    let modulus := 2 ^ bitsLen length length
    let idx := a + (length / 4) * 2 - 1
    let r1 := next length
    let r2 := next r1
    let r3 := next r2
    let other := fun (r : Nat) =>
      let o := r % modulus
      if o ≥ length then o - length else o
    let data := swapAt data (idx - 1) (a + other r1)
    let data := swapAt data idx (a + other r2)
    swapAt data (idx + 1) (a + other r3)
  else data

/-- Go's `pdqsort(data, a, b, limit)`. One step of its `for` loop per unit of
fuel; the two flags are the loop variables `wasBalanced` and
`wasPartitioned`, both true when the function is entered. -/
def pdqsort (next : Nat → Nat) :
    Nat → List ArtworkData → Nat → Nat → Nat → Bool → Bool → List ArtworkData
  | 0, data, _, _, _, _, _ => data
  | fuel + 1, data, a, b, limit, wasBalanced, wasPartitioned =>
    let length := b - a
    if length ≤ maxInsertion then insertionSortRange data a b
    else if limit = 0 then heapSort data a b
    else
      let data := if wasBalanced then data else breakPatterns next data a b
      let limit := if wasBalanced then limit else limit - 1
      let (pivot, hint) := choosePivot data a b
      let data := if hint = SortedHint.decreasingHint then reverseRange data a b else data
      let pivot := if hint = SortedHint.decreasingHint then (b - 1) - (pivot - a) else pivot
      let hint := if hint = SortedHint.decreasingHint then SortedHint.increasingHint else hint
      let (data, sorted) :=
        if wasBalanced ∧ wasPartitioned ∧ hint = SortedHint.increasingHint then
          partialInsertionSort a b 5 data (a + 1)
        else (data, false)
      if sorted then data
      else if a > 0 ∧ lessAt data (a - 1) pivot = false then
        let (data, mid) := partitionEqual data a b pivot
        pdqsort next fuel data mid b limit wasBalanced wasPartitioned
      else
        let (data, mid, alreadyPartitioned) := partition data a b pivot
        let leftLen := mid - a
        let rightLen := b - mid
        let balanceThreshold := length / 8
        if leftLen < rightLen then
          let data := pdqsort next fuel data a mid limit true true
          pdqsort next fuel data (mid + 1) b limit (decide (leftLen ≥ balanceThreshold)) alreadyPartitioned
        else
          let data := pdqsort next fuel data (mid + 1) b limit true true
          pdqsort next fuel data a mid limit (decide (rightLen ≥ balanceThreshold)) alreadyPartitioned

/-- Go's `sort.Sort` (Go 1.19 and later) on go-linq's `sorter`. -/
def goSort (next : Nat → Nat) (data : List ArtworkData) : List ArtworkData :=
  let n := data.length
  if n ≤ 1 then data else pdqsort next (n + 2) data 0 n (bitsLen n n) true true

/-- The offline world with `sort.Sort` written out for long slices too. -/
def pdqWorld : World :=
  { offlineWorld with sortLong := goSort xorshiftNext }

/-- A response with floor 60 and one match whose similarity reads as NaN
(`"similarity":"NaN"`). -/
def nanMatchResponse : Response :=
  { minimum_similarity := F64.fin 60
    short_remaining := 0
    long_remaining := 0
    results := [⟨F64.nan, 9, ["https://danbooru.donmai.us/posts/1"], "", ""⟩] }

/-- A response with floor 60 and three matches of database index 9 with
similarities 70, NaN and 90. -/
def nanGroupResponse : Response :=
  { minimum_similarity := F64.fin 60
    short_remaining := 0
    long_remaining := 0
    results :=
      [⟨F64.fin 70, 9, ["https://danbooru.donmai.us/posts/0"], "", ""⟩,
       ⟨F64.nan, 9, ["https://danbooru.donmai.us/posts/1"], "", ""⟩,
       ⟨F64.fin 90, 9, ["https://danbooru.donmai.us/posts/2"], "", ""⟩] }

/-- A response with floor 60 and four matches of database index 9 with
similarities 70, NaN, 90 and 90. -/
def nanTieResponse : Response :=
  { minimum_similarity := F64.fin 60
    short_remaining := 0
    long_remaining := 0
    results :=
      [⟨F64.fin 70, 9, ["https://danbooru.donmai.us/posts/0"], "", ""⟩,
       ⟨F64.nan, 9, ["https://danbooru.donmai.us/posts/1"], "", ""⟩,
       ⟨F64.fin 90, 9, ["https://danbooru.donmai.us/posts/2"], "", ""⟩,
       ⟨F64.fin 90, 9, ["https://danbooru.donmai.us/posts/3"], "", ""⟩] }

/-- A response with floor 60 and thirteen matches of database index 9: the
first and the tenth share the maximum similarity 90. -/
def thirteenResponse : Response :=
  { minimum_similarity := F64.fin 60
    short_remaining := 0
    long_remaining := 0
    results :=
      [⟨F64.fin 90, 9, ["https://danbooru.donmai.us/posts/0"], "", ""⟩,
       ⟨F64.fin 89, 9, ["https://danbooru.donmai.us/posts/1"], "", ""⟩,
       ⟨F64.fin 88, 9, ["https://danbooru.donmai.us/posts/2"], "", ""⟩,
       ⟨F64.fin 87, 9, ["https://danbooru.donmai.us/posts/3"], "", ""⟩,
       ⟨F64.fin 86, 9, ["https://danbooru.donmai.us/posts/4"], "", ""⟩,
       ⟨F64.fin 85, 9, ["https://danbooru.donmai.us/posts/5"], "", ""⟩,
       ⟨F64.fin 84, 9, ["https://danbooru.donmai.us/posts/6"], "", ""⟩,
       ⟨F64.fin 83, 9, ["https://danbooru.donmai.us/posts/7"], "", ""⟩,
       ⟨F64.fin 82, 9, ["https://danbooru.donmai.us/posts/8"], "", ""⟩,
       ⟨F64.fin 90, 9, ["https://danbooru.donmai.us/posts/9"], "", ""⟩,
       ⟨F64.fin 80, 9, ["https://danbooru.donmai.us/posts/10"], "", ""⟩,
       ⟨F64.fin 79, 9, ["https://danbooru.donmai.us/posts/11"], "", ""⟩,
       ⟨F64.fin 78, 9, ["https://danbooru.donmai.us/posts/12"], "", ""⟩] }


/-- The part of the slice already sorted, last element first, has its
similarities in ascending order. -/
def Ascending (left : List ArtworkData) : Prop :=
  left.Pairwise (fun y z => F64.le y.Similarity z.Similarity = true)

/-- The state of `insertionSort` after the elements `done` have been inserted:
`left` holds them in ascending order, last first, and the first element of the
slice is the earliest of the elements of maximum similarity. -/
def SortedSoFar (done left : List ArtworkData) : Prop :=
  left.Perm done ∧ Ascending left ∧
    ∀ m, left.reverse.head? = some m →
      ∃ before after, done = before ++ m :: after ∧
        (∀ b ∈ before, F64.lt b.Similarity m.Similarity = true) ∧
        (∀ b ∈ after, F64.le b.Similarity m.Similarity = true)

/-! ## Lemmas on `float64` comparisons -/

theorem f64_lt_false_of_le (a b : F64) (h : F64.le a b = true) : F64.lt b a = false := by
  cases a <;> cases b <;> simp_all [F64.lt, F64.le]

theorem f64_le_of_lt_false (a b : F64) (ha : a ≠ F64.nan) (hb : b ≠ F64.nan)
    (h : F64.lt a b = false) : F64.le b a = true := by
  cases a <;> cases b <;> simp_all [F64.lt, F64.le]

theorem f64_lt_false_iff (a b : F64) :
    F64.lt a b = false ↔ (F64.le b a = true ∨ a = F64.nan ∨ b = F64.nan) := by
  cases a <;> cases b <;> simp [F64.lt, F64.le]

theorem f64_le_of_lt (a b : F64) (h : F64.lt a b = true) : F64.le a b = true := by
  cases a <;> cases b <;> simp_all [F64.lt, F64.le]
  exact le_of_lt h

theorem f64_le_trans (a b c : F64) (hab : F64.le a b = true) (hbc : F64.le b c = true) :
    F64.le a c = true := by
  cases a <;> cases b <;> cases c <;> simp_all [F64.le]
  exact le_trans hab hbc

theorem f64_le_refl (a : F64) (ha : a ≠ F64.nan) : F64.le a a = true := by
  cases a <;> simp_all [F64.le]

/-! ## Theorems: the classifier -/

/-- C3 (as stated, refuted): on `https://pixiv.net/artworks/1` the
specification's table gives `Pixiv` at its first entry `pixiv.net`, while
`getDatabaseFromURL` tests `www.pixiv.net` and returns `Unknown`. -/
theorem getDatabaseFromURL_differs_from_spec_table :
    specClassify "https://pixiv.net/artworks/1" = "Pixiv" ∧
      getDatabaseFromURL "https://pixiv.net/artworks/1" = "Unknown" ∧
      specClassify "https://bcy.net/item/1" = "BCY" ∧
      getDatabaseFromURL "https://bcy.net/item/1" = "?????????" := by
  decide

theorem getDatabaseFromURL_eq_classifyByTable (url : String) :
    getDatabaseFromURL url = classifyByTable sourceClassifierTable url := by
  rfl

theorem classifyByTable_first_match (url : String) (table : List (String × String)) :
    (∃ before pattern name after, table = before ++ (pattern, name) :: after ∧
        (∀ e ∈ before, contains url e.1 = false) ∧ contains url pattern = true ∧
        classifyByTable table url = name) ∨
      ((∀ e ∈ table, contains url e.1 = false) ∧ classifyByTable table url = "Unknown") := by
  induction table with
  | nil =>
    right
    refine ⟨?_, rfl⟩
    intro e he
    cases he
  | cons e table ih =>
    obtain ⟨pattern, name⟩ := e
    cases hc : contains url pattern with
    | true =>
      left
      refine ⟨[], pattern, name, table, rfl, ?_, hc, ?_⟩
      · intro e he
        cases he
      · simp [classifyByTable, hc]
    | false =>
      have hstep : classifyByTable ((pattern, name) :: table) url = classifyByTable table url := by
        simp [classifyByTable, hc]
      rcases ih with ⟨before, p, n, after, h1, h2, h3, h4⟩ | ⟨h1, h2⟩
      · left
        refine ⟨(pattern, name) :: before, p, n, after, by rw [h1]; rfl, ?_, h3, by rw [hstep, h4]⟩
        intro e he
        rcases List.mem_cons.mp he with h | h
        · rw [h]; exact hc
        · exact h2 e h
      · right
        refine ⟨?_, by rw [hstep, h2]⟩
        intro e he
        rcases List.mem_cons.mp he with h | h
        · rw [h]; exact hc
        · exact h1 e h

/-- C3 (amended): for every URL, `getDatabaseFromURL` returns the name of the
first entry of the source's own table (`www.pixiv.net`, ..., `www.imdb.com`,
..., `bcy.net` with the name written in the source, ..., `fantia.jp`) whose
pattern is a substring of the URL, and `Unknown` when no pattern is. -/
theorem getDatabaseFromURL_first_match (url : String) :
    (∃ before pattern name after,
        sourceClassifierTable = before ++ (pattern, name) :: after ∧
        (∀ e ∈ before, contains url e.1 = false) ∧ contains url pattern = true ∧
        getDatabaseFromURL url = name) ∨
      ((∀ e ∈ sourceClassifierTable, contains url e.1 = false) ∧
        getDatabaseFromURL url = "Unknown") := by
  rw [getDatabaseFromURL_eq_classifyByTable]
  exact classifyByTable_first_match url sourceClassifierTable

/-! ## Theorems: the e-hentai lookup -/

/-- The `Each` loop keeps the `href` of the last anchor with the right label. -/
theorem foldl_last_labelled (name : String) (anchors : List GalleryAnchor) (init : String) :
    anchors.foldl
        (fun result selection => if selection.glink = name then selection.href.getD "" else result)
        init =
      match anchors.reverse.find? (fun a => a.glink = name) with
      | some a => a.href.getD ""
      | none => init := by
  induction anchors generalizing init with
  | nil => simp
  | cons a l ih =>
    rw [List.foldl_cons, ih, List.reverse_cons, List.find?_append]
    cases hfind : l.reverse.find? (fun a => decide (a.glink = name)) with
    | some b => simp
    | none =>
      by_cases h : a.glink = name <;> simp [h]

/-- C8 (as stated, refuted): on a listing with two links labelled with the
title, `getEHentaiGallery` returns the `href` of the second one, not of the
first. -/
theorem getEHentaiGallery_not_first_link :
    getEHentaiGallery
        (fun _ => some [⟨"Title", some "https://e-hentai.org/g/1/a/"⟩,
          ⟨"Title", some "https://e-hentai.org/g/2/b/"⟩]) "Title" "" =
        "https://e-hentai.org/g/2/b/" ∧
      firstLabelled [⟨"Title", some "https://e-hentai.org/g/1/a/"⟩,
          ⟨"Title", some "https://e-hentai.org/g/2/b/"⟩] "Title" =
        "https://e-hentai.org/g/1/a/" := by
  decide

/-- C8 (amended): for a non-empty title and a listing that was fetched and
parsed, `getEHentaiGallery` returns the `href` of the LAST link in document
order whose label equals the title (empty if that link has no `href`), and
the empty string when no label equals the title. -/
theorem getEHentaiGallery_last_link (fetch : String → Option (List GalleryAnchor))
    (engName jpName : String) (anchors : List GalleryAnchor)
    (htitle : lookupName engName jpName ≠ "")
    (hfetch : fetch (lookupName engName jpName) = some anchors) :
    getEHentaiGallery fetch engName jpName =
        lastLabelled anchors (lookupName engName jpName) ∧
      ((∀ a ∈ anchors, a.glink ≠ lookupName engName jpName) →
        getEHentaiGallery fetch engName jpName = "") := by
  have hne : ¬ (engName = "" ∧ jpName = "") := by
    rintro ⟨h1, h2⟩
    exact htitle (by simp [lookupName, h1, h2])
  have hmain : getEHentaiGallery fetch engName jpName =
      lastLabelled anchors (lookupName engName jpName) := by
    unfold getEHentaiGallery lastLabelled
    rw [if_neg hne]
    simp only [hfetch]
    exact foldl_last_labelled _ _ _
  refine ⟨hmain, fun hnone => ?_⟩
  rw [hmain]
  unfold lastLabelled
  have : anchors.reverse.find? (fun a => decide (a.glink = lookupName engName jpName)) = none := by
    rw [List.find?_eq_none]
    intro a ha
    simpa using hnone a (List.mem_reverse.mp ha)
  rw [this]

/-- Witness for C8 (amended). -/
theorem getEHentaiGallery_last_link_witness :
    getEHentaiGallery
        (fun _ => some [⟨"Title", some "https://e-hentai.org/g/1/a/"⟩, ⟨"Other", none⟩]) "" "Title" =
        lastLabelled [⟨"Title", some "https://e-hentai.org/g/1/a/"⟩, ⟨"Other", none⟩]
          (lookupName "" "Title") ∧
      ((∀ a ∈ [(⟨"Title", some "https://e-hentai.org/g/1/a/"⟩ : GalleryAnchor), ⟨"Other", none⟩],
          a.glink ≠ lookupName "" "Title") →
        getEHentaiGallery
          (fun _ => some [⟨"Title", some "https://e-hentai.org/g/1/a/"⟩, ⟨"Other", none⟩])
          "" "Title" = "") :=
  getEHentaiGallery_last_link _ "" "Title" _ (by decide) rfl

/-! ## Theorems: the resolution loop -/

/-- C5 (failing input): a single match above the floor with database index 5
(Pixiv) and no `ext_urls` makes `Search` panic on `extURLs[0]` in every world;
the match is not dropped and no result is returned. -/
theorem Search_pixiv_without_ext_urls_panics (w : World) :
    resolveURL w 0 ⟨F64.fin 80, 5, [], "", ""⟩ = Resolution.panic ∧
      Search w ⟨F64.fin 60, 0, 0, [⟨F64.fin 80, 5, [], "", ""⟩]⟩ = none ∧
      Search w ⟨F64.fin 60, 0, 0,
        [⟨F64.fin 80, 5, [], "", ""⟩, ⟨F64.fin 90, 9, ["https://danbooru.donmai.us/posts/1"], "", ""⟩]⟩ = none := by
  have hr : resolveURL w 0 ⟨F64.fin 80, 5, [], "", ""⟩ = Resolution.panic := rfl
  have h : F64.lt (F64.fin 80) (F64.fin 60) = false := by decide
  refine ⟨hr, ?_, ?_⟩ <;> simp only [Search, searchLoop, h, Bool.false_eq_true, if_false, hr]

/-- C9 (as stated, refuted): an e-hentai match (index 38) above the floor
with both titles empty and a non-empty `ext_urls` is not resolved to
`ext_urls[0]`: it contributes nothing to the result. -/
theorem Search_untitled_ehentai_is_dropped :
    Search offlineWorld ⟨F64.fin 60, 0, 0, [⟨F64.fin 80, 38, ["https://e-hentai.org/g/1/a/"], "", ""⟩]⟩ =
        some ⟨F64.fin 60, 0, 0, []⟩ ∧
      Search offlineWorld ⟨F64.fin 60, 0, 0, [⟨F64.fin 80, 18, ["https://nhentai.net/g/1/"], "", ""⟩]⟩ =
        some ⟨F64.fin 60, 0, 0, []⟩ := by
  decide

/-- C9 (amended): a match with database index 38 (e-hentai) or 18 (nhentai)
whose English and Japanese titles are both empty resolves to the empty URL
without any lookup and is dropped whatever `ext_urls` holds: the loop goes on
to the remaining matches with the map `result` unchanged. -/
theorem untitled_gallery_match_is_dropped (w : World) (minimumSimilarity : F64) (i : Nat)
    (r : RawMatch) (rs : List RawMatch) (result : List (Int × List ArtworkData))
    (hidx : r.index_id = 38 ∨ r.index_id = 18) (heng : r.eng_name = "") (hjp : r.jp_name = "") :
    resolveURL w i r = Resolution.url "" ∧
      searchLoop w minimumSimilarity i (r :: rs) result =
        searchLoop w minimumSimilarity (i + 1) rs result := by
  have h38 : databaseIndex "ehentai" = 38 := by decide
  have h18 : databaseIndex "nhentai" = 18 := by decide
  have hres : resolveURL w i r = Resolution.url "" := by
    unfold resolveURL
    rw [h38, h18]
    rcases hidx with h | h
    · simp [h, getEHentaiGallery, heng, hjp]
    · simp [h, getNHentaiGallery, heng, hjp]
  refine ⟨hres, ?_⟩
  rw [searchLoop]
  split
  · rfl
  · simp [hres]

/-- Witness for C9 (amended). -/
theorem untitled_gallery_match_is_dropped_witness :
    resolveURL offlineWorld 0 ⟨F64.fin 80, 38, ["https://e-hentai.org/g/1/a/"], "", ""⟩ =
        Resolution.url "" ∧
      searchLoop offlineWorld (F64.fin 60) 0
          [⟨F64.fin 80, 38, ["https://e-hentai.org/g/1/a/"], "", ""⟩,
            ⟨F64.fin 90, 9, ["https://danbooru.donmai.us/posts/1"], "", ""⟩] [] =
        searchLoop offlineWorld (F64.fin 60) (0 + 1)
          [⟨F64.fin 90, 9, ["https://danbooru.donmai.us/posts/1"], "", ""⟩] [] :=
  untitled_gallery_match_is_dropped offlineWorld (F64.fin 60) 0
    ⟨F64.fin 80, 38, ["https://e-hentai.org/g/1/a/"], "", ""⟩
    [⟨F64.fin 90, 9, ["https://danbooru.donmai.us/posts/1"], "", ""⟩] [] (Or.inl rfl) rfl rfl

/-- C10: for a match above the floor whose database index is none of 5, 18
and 38, the resolved URL is `ext_urls[0]` when `ext_urls` is non-empty (and,
when that URL is not the empty string, it is appended to the group of the
match's index); when `ext_urls` is empty the match is dropped: the loop goes
on to the remaining matches with the map `result` unchanged. -/
theorem default_strategy (w : World) (minimumSimilarity : F64) (i : Nat) (r : RawMatch)
    (rs : List RawMatch) (result : List (Int × List ArtworkData))
    (h5 : r.index_id ≠ 5) (h18 : r.index_id ≠ 18) (h38 : r.index_id ≠ 38)
    (hsim : F64.le minimumSimilarity r.similarity = true) :
    (∀ u us, r.ext_urls = u :: us →
        resolveURL w i r = Resolution.url u ∧
          (u ≠ "" →
            searchLoop w minimumSimilarity i (r :: rs) result =
              searchLoop w minimumSimilarity (i + 1) rs
                (appendAt result r.index_id ⟨r.similarity, u⟩))) ∧
      (r.ext_urls = [] →
        resolveURL w i r = Resolution.drop ∧
          searchLoop w minimumSimilarity i (r :: rs) result =
            searchLoop w minimumSimilarity (i + 1) rs result) := by
  have e38 : databaseIndex "ehentai" = 38 := by decide
  have e18 : databaseIndex "nhentai" = 18 := by decide
  have e5 : databaseIndex "Pixiv" = 5 := by decide
  have hlt : ¬ (F64.lt r.similarity minimumSimilarity = true) := by
    rw [f64_lt_false_of_le _ _ hsim]
    exact Bool.false_ne_true
  constructor
  · intro u us hext
    have hres : resolveURL w i r = Resolution.url u := by
      unfold resolveURL
      rw [e38, e18, e5, if_neg h38, if_neg h18, if_neg h5, hext]
    refine ⟨hres, fun hu => ?_⟩
    rw [searchLoop, if_neg hlt]
    simp [hres, hu]
  · intro hext
    have hres : resolveURL w i r = Resolution.drop := by
      unfold resolveURL
      rw [e38, e18, e5, if_neg h38, if_neg h18, if_neg h5, hext]
    refine ⟨hres, ?_⟩
    rw [searchLoop, if_neg hlt]
    simp [hres]

/-- Witness for C10: the scenario of an unmapped index with `ext_urls = []`,
similarity 80 and floor 60. -/
theorem default_strategy_witness :
    Search offlineWorld ⟨F64.fin 60, 0, 0, [⟨F64.fin 80, 99, [], "", ""⟩]⟩ = some ⟨F64.fin 60, 0, 0, []⟩ := by
  have h := (default_strategy offlineWorld (F64.fin 60) 0 ⟨F64.fin 80, 99, [], "", ""⟩ [] []
    (by decide) (by decide) (by decide) (by decide)).2 rfl
  simp only [Search, h.2]
  rfl

/-! ## Lemmas on the two maps of `Search` -/

theorem getGroup_appendAt (m : List (Int × List ArtworkData)) (k k' : Int) (a : ArtworkData) :
    getGroup (appendAt m k a) k' = if k' = k then getGroup m k ++ [a] else getGroup m k' := by
  induction m with
  | nil =>
    by_cases h : k' = k
    · simp [appendAt, getGroup, h]
    · have h' : ¬ k = k' := fun e => h e.symm
      simp [appendAt, getGroup, h, h']
  | cons e m ih =>
    obtain ⟨k0, l0⟩ := e
    by_cases h0 : k0 = k
    · subst h0
      by_cases h : k' = k0
      · simp [appendAt, getGroup, h]
      · have h' : ¬ k0 = k' := fun e => h e.symm
        simp [appendAt, getGroup, h, h']
    · by_cases h : k0 = k'
      · have hk : ¬ k' = k := fun e => h0 (h.trans e)
        simp [appendAt, getGroup, h0, h, hk]
      · simp [appendAt, getGroup, h0, h, ih]

theorem keys_appendAt (m : List (Int × List ArtworkData)) (k : Int) (a : ArtworkData) :
    (appendAt m k a).map Prod.fst =
      if k ∈ m.map Prod.fst then m.map Prod.fst else m.map Prod.fst ++ [k] := by
  induction m with
  | nil => simp [appendAt]
  | cons e m ih =>
    obtain ⟨k0, l0⟩ := e
    by_cases h0 : k0 = k
    · simp [appendAt, h0]
    · have h0' : ¬ k = k0 := fun e => h0 e.symm
      by_cases hk : k ∈ m.map Prod.fst
      · simp only [appendAt, if_neg h0, List.map_cons, ih, if_pos hk]
        simp [hk]
      · simp only [appendAt, if_neg h0, List.map_cons, ih, if_neg hk]
        have : k ∉ k0 :: m.map Prod.fst := by
          simp only [List.mem_cons, not_or]
          exact ⟨h0', hk⟩
        rw [if_neg this]
        rfl

theorem nodup_keys_appendAt (m : List (Int × List ArtworkData)) (k : Int) (a : ArtworkData)
    (h : (m.map Prod.fst).Nodup) : ((appendAt m k a).map Prod.fst).Nodup := by
  rw [keys_appendAt]
  split
  · exact h
  · rename_i hk
    rw [List.nodup_append]
    refine ⟨h, List.nodup_singleton k, ?_⟩
    intro x hx hx'
    rw [List.mem_singleton] at hx'
    subst hx'
    exact hk hx

theorem getGroup_of_mem (m : List (Int × List ArtworkData)) (k : Int) (l : List ArtworkData)
    (hnd : (m.map Prod.fst).Nodup) (hmem : (k, l) ∈ m) : getGroup m k = l := by
  induction m with
  | nil => cases hmem
  | cons e m ih =>
    obtain ⟨k0, l0⟩ := e
    rw [List.map_cons, List.nodup_cons] at hnd
    rcases List.mem_cons.mp hmem with h | h
    · cases h
      simp [getGroup]
    · have hne : ¬ k0 = k := by
        intro e
        subst e
        exact hnd.1 (List.mem_map.mpr ⟨(k0, l), h, rfl⟩)
      simp only [getGroup, if_neg hne]
      exact ih hnd.2 h

/-- The first loop, when it does not panic, appends the resolved matches to
their groups in provider order. -/
theorem searchLoop_eq_foldl (w : World) (f : F64) (rs : List RawMatch) :
    ∀ (i : Nat) (result out : List (Int × List ArtworkData)),
      searchLoop w f i rs result = some out →
        out = (resolvedMatches w f i rs).foldl (fun m e => appendAt m e.1 e.2) result := by
  induction rs with
  | nil =>
    intro i result out h
    simp only [searchLoop, Option.some.injEq] at h
    simp [resolvedMatches, h]
  | cons r rs ih =>
    intro i result out h
    rw [searchLoop] at h
    rw [resolvedMatches]
    by_cases hlt : F64.lt r.similarity f = true
    · rw [if_pos hlt] at h ⊢
      exact ih _ _ _ h
    · rw [if_neg hlt] at h ⊢
      cases hres : resolveURL w i r with
      | panic => simp [hres] at h
      | drop =>
        simp only [hres] at h ⊢
        exact ih _ _ _ h
      | url u =>
        simp only [hres] at h ⊢
        by_cases hu : u = ""
        · rw [if_pos hu] at h ⊢
          exact ih _ _ _ h
        · rw [if_neg hu] at h ⊢
          rw [List.foldl_cons]
          exact ih _ _ _ h

theorem foldl_appendAt_spec (flat : List (Int × ArtworkData)) :
    ∀ m : List (Int × List ArtworkData), (m.map Prod.fst).Nodup →
      ((flat.foldl (fun m e => appendAt m e.1 e.2) m).map Prod.fst).Nodup ∧
        ∀ k, getGroup (flat.foldl (fun m e => appendAt m e.1 e.2) m) k =
          getGroup m k ++ indexGroup k flat := by
  induction flat with
  | nil => intro m h; simp [indexGroup, h]
  | cons e flat ih =>
    intro m h
    obtain ⟨h1, h2⟩ := ih (appendAt m e.1 e.2) (nodup_keys_appendAt m e.1 e.2 h)
    refine ⟨h1, fun k => ?_⟩
    rw [List.foldl_cons, h2 k, getGroup_appendAt]
    by_cases hk : k = e.1
    · subst hk
      simp [indexGroup, List.filter_cons]
    · have hk' : ¬ e.1 = k := fun e => hk e.symm
      simp [indexGroup, List.filter_cons, hk, hk']

/-- Every group of the map built by the first loop is the list of resolved
matches of its database index, in provider order. -/
theorem searchLoop_groups (w : World) (f : F64) (rs : List RawMatch)
    (out : List (Int × List ArtworkData)) (h : searchLoop w f 0 rs [] = some out)
    (k : Int) (l : List ArtworkData) (hmem : (k, l) ∈ out) :
    l = indexGroup k (resolvedMatches w f 0 rs) := by
  have hout := searchLoop_eq_foldl w f rs 0 [] out h
  obtain ⟨h1, h2⟩ := foldl_appendAt_spec (resolvedMatches w f 0 rs) [] (by simp)
  rw [← hout] at h1 h2
  rw [← getGroup_of_mem out k l h1 hmem, h2 k]
  simp [getGroup]

theorem mem_mapSet (m : List (String × String)) (k v : String) (p : String × String)
    (h : p ∈ mapSet m k v) : p = (k, v) ∨ p ∈ m := by
  induction m with
  | nil =>
    simp only [mapSet, List.mem_singleton] at h
    exact Or.inl h
  | cons e m ih =>
    obtain ⟨k0, v0⟩ := e
    by_cases h0 : k0 = k
    · simp only [mapSet, if_pos h0, List.mem_cons] at h
      rcases h with h | h
      · left; rw [h, h0]
      · right; exact List.mem_cons_of_mem _ h
    · simp only [mapSet, if_neg h0, List.mem_cons] at h
      rcases h with h | h
      · right; rw [h]; exact List.mem_cons_self _ _
      · rcases ih h with h | h
        · exact Or.inl h
        · exact Or.inr (List.mem_cons_of_mem _ h)

/-- Every entry written by the second loop is the `fixed` URL of one of the
groups, under the name `getDatabaseFromURL` gives it. -/
theorem dedupe_entries (w : World) (groups : List (Int × List ArtworkData)) :
    ∀ (sr out : List (String × String)), dedupe w groups sr = some out →
      ∀ p ∈ out, p ∈ sr ∨
        ∃ g ∈ groups, ∃ U, fixedURL w g.2 = some U ∧ p = (getDatabaseFromURL U, U) := by
  induction groups with
  | nil =>
    intro sr out h p hp
    simp only [dedupe, Option.some.injEq] at h
    subst h
    exact Or.inl hp
  | cons g groups ih =>
    intro sr out h p hp
    obtain ⟨k, l⟩ := g
    rw [dedupe] at h
    cases hfix : fixedURL w l with
    | none => simp [hfix] at h
    | some U =>
      simp only [hfix] at h
      rcases ih _ _ h p hp with h1 | ⟨g, hg, U', hU', hp'⟩
      · rcases mem_mapSet _ _ _ _ h1 with h2 | h2
        · exact Or.inr ⟨(k, l), List.mem_cons_self _ _, U, hfix, h2⟩
        · exact Or.inl h2
      · exact Or.inr ⟨g, List.mem_cons_of_mem _ hg, U', hU', hp'⟩

/-- Every entry of the map returned by `Search` is the `fixed` URL of the
group of one database index, which holds the resolved matches of that index
in provider order. -/
theorem Search_entry_group (w : World) (hperm : ∀ m, (w.rangeOrder m).Perm m)
    (resp : Response) (res : SaucenaoResult) (h : Search w resp = some res)
    (S U : String) (hmem : (S, U) ∈ res.SearchResult) :
    S = getDatabaseFromURL U ∧
      ∃ k, fixedURL w
        (indexGroup k (resolvedMatches w resp.minimum_similarity 0 resp.results)) = some U := by
  unfold Search at h
  cases hloop : searchLoop w resp.minimum_similarity 0 resp.results [] with
  | none => simp [hloop] at h
  | some result =>
    simp only [hloop] at h
    cases hded : dedupe w (w.rangeOrder result) [] with
    | none => simp [hded] at h
    | some sr =>
      simp only [hded, Option.some.injEq] at h
      subst h
      rcases dedupe_entries w _ _ _ hded (S, U) hmem with h1 | ⟨g, hg, U', hU', hp⟩
      · cases h1
      · obtain ⟨k, l⟩ := g
        have hg' : (k, l) ∈ result := (hperm result).mem_iff.mp hg
        have hl := searchLoop_groups w _ _ result hloop k l hg'
        simp only [Prod.mk.injEq] at hp
        obtain ⟨hS, hU⟩ := hp
        subst hU
        refine ⟨hS, k, ?_⟩
        rw [← hl]
        exact hU'

theorem mem_indexGroup (k : Int) (flat : List (Int × ArtworkData)) (a : ArtworkData) :
    a ∈ indexGroup k flat ↔ (k, a) ∈ flat := by
  unfold indexGroup
  constructor
  · intro h
    obtain ⟨e, he, rfl⟩ := List.mem_map.mp h
    obtain ⟨he1, he2⟩ := List.mem_filter.mp he
    have : e.1 = k := by simpa using he2
    rw [← this]
    exact he1
  · intro h
    exact List.mem_map.mpr ⟨(k, a), List.mem_filter.mpr ⟨h, by simp⟩, rfl⟩

theorem indexGroup_length_le (k : Int) (flat : List (Int × ArtworkData)) :
    (indexGroup k flat).length ≤ flat.length := by
  unfold indexGroup
  rw [List.length_map]
  exact List.length_filter_le _ _

/-- A resolved match comes from a match of the response that passed the test
against the floor, and carries its index, its similarity and its resolved
URL. -/
theorem mem_resolvedMatches (w : World) (f : F64) (rs : List RawMatch) :
    ∀ (i : Nat) (k : Int) (a : ArtworkData), (k, a) ∈ resolvedMatches w f i rs →
      ∃ j r, rs[j]? = some r ∧ F64.lt r.similarity f = false ∧
        resolveURL w (i + j) r = Resolution.url a.URL ∧
        a.URL ≠ "" ∧ k = r.index_id ∧ a.Similarity = r.similarity := by
  induction rs with
  | nil => intro i k a h; simp [resolvedMatches] at h
  | cons r rs ih =>
    intro i k a h
    have hrec : (k, a) ∈ resolvedMatches w f (i + 1) rs →
        ∃ j r', (r :: rs)[j]? = some r' ∧ F64.lt r'.similarity f = false ∧
          resolveURL w (i + j) r' = Resolution.url a.URL ∧
          a.URL ≠ "" ∧ k = r'.index_id ∧ a.Similarity = r'.similarity := by
      intro h'
      obtain ⟨j, r', h1, h2, h3, h4⟩ := ih (i + 1) k a h'
      refine ⟨j + 1, r', by simpa using h1, h2, ?_, h4⟩
      rw [← h3]
      congr 1
      omega
    rw [resolvedMatches] at h
    by_cases hlt : F64.lt r.similarity f = true
    · rw [if_pos hlt] at h
      exact hrec h
    · rw [if_neg hlt] at h
      cases hres : resolveURL w i r with
      | panic => simp only [hres] at h; exact hrec h
      | drop => simp only [hres] at h; exact hrec h
      | url u =>
        simp only [hres] at h
        by_cases hu : u = ""
        · rw [if_pos hu] at h
          exact hrec h
        · rw [if_neg hu] at h
          rcases List.mem_cons.mp h with h | h
          · simp only [Prod.mk.injEq] at h
            obtain ⟨hk, ha⟩ := h
            subst ha
            exact ⟨0, r, by simp, by simpa using hlt, by simpa using hres, hu, hk, rfl⟩
          · exact hrec h

/-! ## Lemmas on the ordering -/

theorem sinkLeft_perm (x : ArtworkData) (left : List ArtworkData) :
    (sinkLeft x left).Perm (x :: left) := by
  induction left with
  | nil => simp [sinkLeft]
  | cons y left ih =>
    unfold sinkLeft
    split
    · exact (List.Perm.cons y ih).trans (List.Perm.swap x y left)
    · exact List.Perm.refl _

theorem foldl_sinkLeft_perm (l : List ArtworkData) :
    ∀ left, (l.foldl (fun left x => sinkLeft x left) left).Perm (left ++ l) := by
  induction l with
  | nil => intro left; simp
  | cons x l ih =>
    intro left
    rw [List.foldl_cons]
    refine (ih (sinkLeft x left)).trans ?_
    have h1 : (sinkLeft x left ++ l).Perm ((x :: left) ++ l) :=
      List.Perm.append_right l (sinkLeft_perm x left)
    refine h1.trans ?_
    rw [List.cons_append]
    exact List.perm_middle.symm

theorem insertionSort_perm (l : List ArtworkData) : (insertionSort l).Perm l := by
  unfold insertionSort
  refine (List.reverse_perm _).trans ?_
  simpa using foldl_sinkLeft_perm l []

/-- Where the inner loop of `insertionSort` stops: the new element passes the
elements it is `less` than and halts in front of the first it is not. -/
theorem sinkLeft_split (x : ArtworkData) (left : List ArtworkData) :
    ∃ passed rest, left = passed ++ rest ∧ sinkLeft x left = passed ++ x :: rest ∧
      (∀ y ∈ passed, lessDesc x y = true) ∧ (∀ y, rest.head? = some y → lessDesc x y = false) := by
  induction left with
  | nil => exact ⟨[], [], rfl, rfl, by simp, by simp⟩
  | cons y left ih =>
    cases hless : lessDesc x y with
    | true =>
      obtain ⟨passed, rest, h1, h2, h3, h4⟩ := ih
      refine ⟨y :: passed, rest, by rw [h1]; rfl, by simp [sinkLeft, hless, h2], ?_, h4⟩
      intro z hz
      rcases List.mem_cons.mp hz with h | h
      · rw [h]; exact hless
      · exact h3 z h
    | false =>
      refine ⟨[], y :: left, rfl, by simp [sinkLeft, hless], by simp, ?_⟩
      intro z hz
      simp only [List.head?_cons, Option.some.injEq] at hz
      rw [← hz]; exact hless

theorem nanFree_cons (a : ArtworkData) (l : List ArtworkData) (h : NaNFree (a :: l)) :
    a.Similarity ≠ F64.nan ∧ NaNFree l :=
  ⟨h a (List.mem_cons_self _ _), fun b hb => h b (List.mem_cons_of_mem _ hb)⟩

theorem nanFree_of_perm (l l' : List ArtworkData) (hp : l.Perm l') (h : NaNFree l') :
    NaNFree l :=
  fun a ha => h a (hp.mem_iff.mp ha)

theorem sinkLeft_ascending (x : ArtworkData) (hx : x.Similarity ≠ F64.nan)
    (left : List ArtworkData) (hfree : NaNFree left) (h : Ascending left) :
    Ascending (sinkLeft x left) := by
  induction left with
  | nil => simp [sinkLeft, Ascending]
  | cons y left ih =>
    obtain ⟨hy, hfree'⟩ := nanFree_cons y left hfree
    obtain ⟨hyl, hl⟩ := List.pairwise_cons.mp h
    unfold sinkLeft
    cases hless : lessDesc x y with
    | true =>
      simp only [if_true]
      refine List.pairwise_cons.mpr ⟨fun z hz => ?_, ih hfree' hl⟩
      rcases List.mem_cons.mp ((sinkLeft_perm x left).mem_iff.mp hz) with hz' | hz'
      · rw [hz']; exact f64_le_of_lt _ _ hless
      · exact hyl z hz'
    | false =>
      simp only [Bool.false_eq_true, if_false]
      have hxy : F64.le x.Similarity y.Similarity = true := f64_le_of_lt_false _ _ hy hx hless
      refine List.pairwise_cons.mpr ⟨fun z hz => ?_, h⟩
      rcases List.mem_cons.mp hz with hz' | hz'
      · rw [hz']; exact hxy
      · exact f64_le_trans _ _ _ hxy (hyl z hz')

theorem ascending_le_last (left : List ArtworkData) (hfree : NaNFree left) (h : Ascending left)
    (m : ArtworkData) (hm : left.reverse.head? = some m) :
    ∀ y ∈ left, F64.le y.Similarity m.Similarity = true := by
  have hrev : left.reverse.Pairwise (fun a b => F64.le b.Similarity a.Similarity = true) :=
    List.pairwise_reverse.mpr h
  cases hleft : left.reverse with
  | nil => rw [hleft] at hm; cases hm
  | cons m' t =>
    rw [hleft] at hm hrev
    simp only [List.head?_cons, Option.some.injEq] at hm
    subst hm
    intro y hy
    have hy' : y ∈ m' :: t := by rw [← hleft]; exact List.mem_reverse.mpr hy
    rcases List.mem_cons.mp hy' with h1 | h1
    · rw [h1]; exact f64_le_refl _ (hfree m' (List.mem_reverse.mp (by rw [hleft]; exact List.mem_cons_self _ _)))
    · exact (List.pairwise_cons.mp hrev).1 y h1

theorem sortedSoFar_step (done left : List ArtworkData) (x : ArtworkData)
    (hfree : NaNFree (done ++ [x])) (h : SortedSoFar done left) :
    SortedSoFar (done ++ [x]) (sinkLeft x left) := by
  obtain ⟨hperm, hasc, hhead⟩ := h
  have hx : x.Similarity ≠ F64.nan := hfree x (by simp)
  have hdone : NaNFree done := fun a ha => hfree a (List.mem_append_left _ ha)
  have hleft : NaNFree left := nanFree_of_perm _ _ hperm hdone
  refine ⟨?_, sinkLeft_ascending x hx left hleft hasc, ?_⟩
  · refine (sinkLeft_perm x left).trans ?_
    refine (List.Perm.cons x hperm).trans ?_
    exact (List.perm_append_singleton x done).symm
  · intro m hm
    obtain ⟨passed, rest, h1, h2, h3, h4⟩ := sinkLeft_split x left
    rw [h2] at hm
    cases rest with
    | nil =>
      simp only [List.reverse_append, List.reverse_cons, List.reverse_nil, List.nil_append,
        List.singleton_append, List.head?_cons, Option.some.injEq] at hm
      subst hm
      refine ⟨done, [], rfl, ?_, by simp⟩
      intro b hb
      have hb' : b ∈ passed := by
        have : b ∈ left := hperm.mem_iff.mpr hb
        rw [h1] at this
        simpa using this
      exact h3 b hb'
    | cons y rest =>
      have hm' : left.reverse.head? = some m := by
        have key : ∀ t : List ArtworkData,
            ((y :: rest).reverse ++ t).head? = (y :: rest).reverse.head? :=
          fun t => List.head?_append_of_ne_nil _ (by simp)
        have e1 : (passed ++ x :: y :: rest).reverse =
            (y :: rest).reverse ++ (x :: passed.reverse) := by simp
        have e2 : (passed ++ y :: rest).reverse = (y :: rest).reverse ++ passed.reverse := by
          simp
        rw [e1, key] at hm
        rw [h1, e2, key]
        exact hm
      obtain ⟨before, after, hd, hb, ha⟩ := hhead m hm'
      refine ⟨before, after ++ [x], by rw [hd]; simp, hb, ?_⟩
      intro b hb'
      rcases List.mem_append.mp hb' with h5 | h5
      · exact ha b h5
      · rw [List.mem_singleton.mp h5]
        have hy : y ∈ left := by rw [h1]; simp
        have hxy : F64.le x.Similarity y.Similarity = true :=
          f64_le_of_lt_false _ _ (hleft y hy) hx (h4 y rfl)
        exact f64_le_trans _ _ _ hxy (ascending_le_last left hleft hasc m hm' y hy)

theorem sortedSoFar_foldl (l : List ArtworkData) :
    ∀ done left, NaNFree (done ++ l) → SortedSoFar done left →
      SortedSoFar (done ++ l) (l.foldl (fun left x => sinkLeft x left) left) := by
  induction l with
  | nil => intro done left _ h; simpa using h
  | cons x l ih =>
    intro done left hfree h
    have hfree' : NaNFree (done ++ [x] ++ l) := by
      simpa [List.append_assoc] using hfree
    have hstep := sortedSoFar_step done left x
      (fun a ha => hfree' a (List.mem_append_left _ ha)) h
    have := ih (done ++ [x]) (sinkLeft x left) hfree' hstep
    simpa [List.append_assoc] using this

theorem sortedSoFar_insertionSort (l : List ArtworkData) (hfree : NaNFree l) :
    SortedSoFar l (l.foldl (fun left x => sinkLeft x left) []) := by
  have h0 : SortedSoFar [] [] :=
    ⟨List.Perm.refl _, List.Pairwise.nil, fun m hm => by simp at hm⟩
  simpa using sortedSoFar_foldl l [] [] (by simpa using hfree) h0

/-- On similarities without NaN, `insertionSort` leaves them in descending
order. -/
theorem insertionSort_sorted (l : List ArtworkData) (hfree : NaNFree l) :
    (insertionSort l).Pairwise (fun a b => F64.le b.Similarity a.Similarity = true) :=
  List.pairwise_reverse.mpr (sortedSoFar_insertionSort l hfree).2.1

/-- On similarities without NaN, the first element `insertionSort` returns is
the earliest element of maximum similarity. -/
theorem insertionSort_head (l : List ArtworkData) (hfree : NaNFree l) (m : ArtworkData)
    (h : (insertionSort l).head? = some m) :
    ∃ before after, l = before ++ m :: after ∧
      (∀ b ∈ before, F64.lt b.Similarity m.Similarity = true) ∧
      (∀ b ∈ after, F64.le b.Similarity m.Similarity = true) :=
  (sortedSoFar_insertionSort l hfree).2.2 m h

theorem offlineWorld_sound : offlineWorld.Sound :=
  ⟨fun m => List.Perm.refl m, insertionSort_perm, insertionSort_sorted⟩

theorem orderByDescendingT_perm (w : World) (hperm : ∀ l, (w.sortLong l).Perm l)
    (l : List ArtworkData) : (orderByDescendingT w l).Perm l := by
  unfold orderByDescendingT
  split
  · exact insertionSort_perm l
  · exact hperm l

theorem orderByDescendingT_sorted (w : World) (hw : w.Sound) (l : List ArtworkData)
    (hfree : NaNFree l) :
    (orderByDescendingT w l).Pairwise (fun a b => F64.le b.Similarity a.Similarity = true) := by
  unfold orderByDescendingT
  split
  · exact insertionSort_sorted l hfree
  · exact hw.2.2 l hfree

/-- In a sound world `fixed` is the URL of a member of the group, of maximum
similarity when no similarity of the group is NaN. -/
theorem fixedURL_is_maximum (w : World) (hw : w.Sound) (l : List ArtworkData) (U : String)
    (h : fixedURL w l = some U) :
    ∃ a ∈ l, a.URL = U ∧
      (NaNFree l → ∀ b ∈ l, F64.le b.Similarity a.Similarity = true) := by
  unfold fixedURL at h
  split at h
  · have hperm := orderByDescendingT_perm w hw.2.1 l
    cases hord : orderByDescendingT w l with
    | nil => simp [hord] at h
    | cons a t =>
      rw [hord] at h hperm
      simp only [List.head?_cons, Option.map_some', Option.some.injEq] at h
      have ha : a ∈ l := hperm.mem_iff.mp (List.mem_cons_self _ _)
      refine ⟨a, ha, h, fun hfree b hb => ?_⟩
      have hsorted := orderByDescendingT_sorted w hw l hfree
      rw [hord] at hsorted
      rcases List.mem_cons.mp (hperm.mem_iff.mpr hb) with hb' | hb'
      · rw [hb']; exact f64_le_refl _ (hfree a ha)
      · exact (List.pairwise_cons.mp hsorted).1 b hb'
  · rename_i hlen
    match l, h, hlen with
    | [], h, _ => simp at h
    | [a], h, _ =>
      simp only [List.head?_cons, Option.map_some', Option.some.injEq] at h
      refine ⟨a, List.mem_singleton_self a, h, fun hfree b hb => ?_⟩
      rw [List.mem_singleton.mp hb]
      exact f64_le_refl _ (hfree a (List.mem_singleton_self a))
    | _ :: _ :: _, _, hlen => simp at hlen

/-- In a group of at most `maxInsertion` matches without NaN, `fixed` is the
URL of the earliest match of maximum similarity. -/
theorem fixedURL_is_earliest_maximum (w : World) (l : List ArtworkData) (U : String)
    (h : fixedURL w l = some U) (hlen : l.length ≤ maxInsertion) (hfree : NaNFree l) :
    ∃ before m after, l = before ++ m :: after ∧ m.URL = U ∧
      (∀ b ∈ before, F64.lt b.Similarity m.Similarity = true) ∧
      (∀ b ∈ after, F64.le b.Similarity m.Similarity = true) := by
  unfold fixedURL at h
  split at h
  · have hord : orderByDescendingT w l = insertionSort l := by
      unfold orderByDescendingT
      rw [if_pos hlen]
    rw [hord] at h
    cases hh : (insertionSort l).head? with
    | none => simp [hh] at h
    | some m =>
      rw [hh] at h
      simp only [Option.map_some', Option.some.injEq] at h
      obtain ⟨before, after, h1, h2, h3⟩ := insertionSort_head l hfree m hh
      exact ⟨before, m, after, h1, h, h2, h3⟩
  · rename_i hlen'
    match l, h, hlen' with
    | [], h, _ => simp at h
    | [a], h, _ =>
      simp only [List.head?_cons, Option.map_some', Option.some.injEq] at h
      exact ⟨[], a, [], rfl, h, by simp, by simp⟩
    | _ :: _ :: _, _, hlen' => simp at hlen'

/-! ## Theorems: the result map -/

/-- C1 (as stated, refuted), in two responses. In the first the entry for
`Danbooru` holds the URL of the match of index 12 with similarity 80, although
a resolved match of index 9 whose URL classifies to `Danbooru` has similarity
90: it lost, inside the group of index 9, against a Pixiv URL. In the second
one group holds the similarities 70, NaN and 90; no comparison with NaN is
true, `insertionSort` moves nothing and the URL of similarity 70 is emitted. -/
theorem Search_entry_not_maximum_of_source :
    (Search offlineWorld mixedIndexResponse =
        some ⟨F64.fin 60, 0, 0, [("Pixiv", "https://www.pixiv.net/artworks/1"),
          ("Danbooru", "https://danbooru.donmai.us/posts/3")]⟩ ∧
      (9, ⟨F64.fin 90, "https://danbooru.donmai.us/posts/2"⟩) ∈
        resolvedMatches offlineWorld (F64.fin 60) 0 mixedIndexResponse.results ∧
      getDatabaseFromURL "https://danbooru.donmai.us/posts/2" = "Danbooru" ∧
      ∀ e ∈ resolvedMatches offlineWorld (F64.fin 60) 0 mixedIndexResponse.results,
        e.2.URL = "https://danbooru.donmai.us/posts/3" →
          F64.lt e.2.Similarity (F64.fin 90) = true) ∧
      (Search offlineWorld nanGroupResponse =
          some ⟨F64.fin 60, 0, 0, [("Danbooru", "https://danbooru.donmai.us/posts/0")]⟩ ∧
        resolvedMatches offlineWorld (F64.fin 60) 0 nanGroupResponse.results =
          [(9, ⟨F64.fin 70, "https://danbooru.donmai.us/posts/0"⟩),
           (9, ⟨F64.nan, "https://danbooru.donmai.us/posts/1"⟩),
           (9, ⟨F64.fin 90, "https://danbooru.donmai.us/posts/2"⟩)] ∧
        F64.lt (F64.fin 70) (F64.fin 90) = true) := by
  decide

/-- When two database indices collapse on one logical source, the entry kept
is the one `range` visits last: the two visiting orders give two results. -/
theorem Search_depends_on_range_order :
    Search offlineWorld twoIndexResponse =
        some ⟨F64.fin 60, 0, 0, [("Danbooru", "https://danbooru.donmai.us/posts/2")]⟩ ∧
      Search reverseRangeWorld twoIndexResponse =
        some ⟨F64.fin 60, 0, 0, [("Danbooru", "https://danbooru.donmai.us/posts/1")]⟩ := by
  decide

/-- C1 (amended): in a sound world each entry `S -> U` of the map returned by
`Search` has `S = getDatabaseFromURL U`, and `U` is the URL of a resolved
match of one database index; when no resolved match of that index has the
similarity NaN, no resolved match of that index is more similar. -/
theorem Search_entry_is_index_group_maximum (w : World) (hw : w.Sound) (resp : Response)
    (res : SaucenaoResult) (h : Search w resp = some res) (S U : String)
    (hmem : (S, U) ∈ res.SearchResult) :
    S = getDatabaseFromURL U ∧
      ∃ k a, (k, a) ∈ resolvedMatches w resp.minimum_similarity 0 resp.results ∧ a.URL = U ∧
        ((∀ b, (k, b) ∈ resolvedMatches w resp.minimum_similarity 0 resp.results →
            b.Similarity ≠ F64.nan) →
          ∀ b, (k, b) ∈ resolvedMatches w resp.minimum_similarity 0 resp.results →
            F64.le b.Similarity a.Similarity = true) := by
  obtain ⟨hS, k, hk⟩ := Search_entry_group w hw.1 resp res h S U hmem
  obtain ⟨a, ha, haU, hmax⟩ := fixedURL_is_maximum w hw _ U hk
  refine ⟨hS, k, a, (mem_indexGroup _ _ _).mp ha, haU, fun hfree b hb => ?_⟩
  exact hmax (fun c hc => hfree c ((mem_indexGroup _ _ _).mp hc)) b
    ((mem_indexGroup _ _ _).mpr hb)

/-- Witness for C1 (amended): the entry for `Pixiv`, chosen in the group of
index 9 among a Pixiv URL of similarity 95 and a Danbooru URL of similarity
90, none of them NaN. -/
theorem Search_entry_is_index_group_maximum_witness :
    ∃ k a, (k, a) ∈ resolvedMatches offlineWorld mixedIndexResponse.minimum_similarity 0
          mixedIndexResponse.results ∧
      a.URL = "https://www.pixiv.net/artworks/1" ∧
      ∀ b, (k, b) ∈ resolvedMatches offlineWorld mixedIndexResponse.minimum_similarity 0
            mixedIndexResponse.results →
        F64.le b.Similarity a.Similarity = true := by
  obtain ⟨_, k, a, hka, haU, hmax⟩ :=
    Search_entry_is_index_group_maximum offlineWorld offlineWorld_sound mixedIndexResponse
      ⟨F64.fin 60, 0, 0, [("Pixiv", "https://www.pixiv.net/artworks/1"),
        ("Danbooru", "https://danbooru.donmai.us/posts/3")]⟩
      (by decide) "Pixiv" "https://www.pixiv.net/artworks/1" (by decide)
  have hfree : ∀ e ∈ resolvedMatches offlineWorld mixedIndexResponse.minimum_similarity 0
      mixedIndexResponse.results, e.2.Similarity ≠ F64.nan := by decide
  exact ⟨k, a, hka, haU, hmax (fun b hb => hfree (k, b) hb)⟩

/-- C2 (as stated, refuted): a match whose similarity is NaN is not below the
floor for the test `similarity < minimumSimilarity`, so its URL is emitted,
although NaN is not at least 60. -/
theorem Search_emits_nan_similarity :
    Search offlineWorld nanMatchResponse =
        some ⟨F64.fin 60, 0, 0, [("Danbooru", "https://danbooru.donmai.us/posts/1")]⟩ ∧
      nanMatchResponse.results =
        [⟨F64.nan, 9, ["https://danbooru.donmai.us/posts/1"], "", ""⟩] ∧
      F64.le nanMatchResponse.minimum_similarity F64.nan = false := by
  decide

/-- C2 (amended): in a sound world every entry of the map returned by `Search`
is the resolved URL of a match of the response for which the test
`similarity < minimum_similarity` is false, that is, whose similarity is at
least the floor unless one of the two values is NaN; a match for which the
test is true leaves the map `result` as it was and the loop goes on to the
next match. -/
theorem Search_entries_not_below_floor (w : World) (hw : w.Sound) (resp : Response)
    (res : SaucenaoResult) (h : Search w resp = some res) (S U : String)
    (hmem : (S, U) ∈ res.SearchResult) :
    (∃ j r, resp.results[j]? = some r ∧ F64.lt r.similarity resp.minimum_similarity = false ∧
        (F64.le resp.minimum_similarity r.similarity = true ∨ r.similarity = F64.nan ∨
          resp.minimum_similarity = F64.nan) ∧
        resolveURL w j r = Resolution.url U) ∧
      ∀ (i : Nat) (r : RawMatch) (rs : List RawMatch) (result : List (Int × List ArtworkData)),
        F64.lt r.similarity resp.minimum_similarity = true →
          searchLoop w resp.minimum_similarity i (r :: rs) result =
            searchLoop w resp.minimum_similarity (i + 1) rs result := by
  constructor
  · obtain ⟨_, k, hk⟩ := Search_entry_group w hw.1 resp res h S U hmem
    obtain ⟨a, ha, haU, _⟩ := fixedURL_is_maximum w hw _ U hk
    obtain ⟨j, r, h1, h2, h3, _⟩ :=
      mem_resolvedMatches w _ _ 0 k a ((mem_indexGroup _ _ _).mp ha)
    refine ⟨j, r, h1, h2, (f64_lt_false_iff _ _).mp h2, ?_⟩
    rw [← haU, ← h3]
    congr 1
    omega
  · intro i r rs result hlt
    rw [searchLoop, if_pos hlt]

/-- Witness for C2 (amended): a response whose first match is below the
floor. -/
theorem Search_entries_not_below_floor_witness :
    (∃ j r, tiedIndexResponse.results[j]? = some r ∧
        F64.lt r.similarity tiedIndexResponse.minimum_similarity = false ∧
        (F64.le tiedIndexResponse.minimum_similarity r.similarity = true ∨
          r.similarity = F64.nan ∨ tiedIndexResponse.minimum_similarity = F64.nan) ∧
        resolveURL offlineWorld j r = Resolution.url "https://danbooru.donmai.us/posts/1") ∧
      ∀ (i : Nat) (r : RawMatch) (rs : List RawMatch) (result : List (Int × List ArtworkData)),
        F64.lt r.similarity tiedIndexResponse.minimum_similarity = true →
          searchLoop offlineWorld tiedIndexResponse.minimum_similarity i (r :: rs) result =
            searchLoop offlineWorld tiedIndexResponse.minimum_similarity (i + 1) rs result :=
  Search_entries_not_below_floor offlineWorld offlineWorld_sound tiedIndexResponse
    ⟨F64.fin 60, 0, 0, [("Danbooru", "https://danbooru.donmai.us/posts/1")]⟩
    (by decide) "Danbooru" "https://danbooru.donmai.us/posts/1" (by decide)

/-- C7 (as stated, refuted), in three responses. In the first two resolved
matches classified `Danbooru` share the maximum similarity 90 of their source,
and the entry for `Danbooru` holds the URL of the later one (index 12), because
the earlier one sits in the group of index 9 below a Pixiv URL. In the second
thirteen matches of index 9 go through `sort.Sort` beyond `insertionSort`: the
first and the tenth share the maximum 90 and the tenth is emitted. In the
third the group holds the similarities 70, NaN, 90 and 90 and the URL of
similarity 70 is emitted. -/
theorem Search_tie_not_earliest_of_source :
    (Search offlineWorld tiedSourceResponse =
        some ⟨F64.fin 60, 0, 0, [("Pixiv", "https://www.pixiv.net/artworks/2"),
          ("Danbooru", "https://danbooru.donmai.us/posts/3")]⟩ ∧
      resolvedMatches offlineWorld (F64.fin 60) 0 tiedSourceResponse.results =
        [(9, ⟨F64.fin 90, "https://danbooru.donmai.us/posts/1"⟩),
         (9, ⟨F64.fin 95, "https://www.pixiv.net/artworks/2"⟩),
         (12, ⟨F64.fin 90, "https://danbooru.donmai.us/posts/3"⟩)] ∧
      getDatabaseFromURL "https://danbooru.donmai.us/posts/1" = "Danbooru" ∧
      getDatabaseFromURL "https://danbooru.donmai.us/posts/3" = "Danbooru") ∧
      (Search pdqWorld thirteenResponse =
          some ⟨F64.fin 60, 0, 0, [("Danbooru", "https://danbooru.donmai.us/posts/9")]⟩ ∧
        (resolvedMatches pdqWorld (F64.fin 60) 0 thirteenResponse.results).map
            (fun e => e.2.Similarity) =
          [F64.fin 90, F64.fin 89, F64.fin 88, F64.fin 87, F64.fin 86, F64.fin 85, F64.fin 84,
            F64.fin 83, F64.fin 82, F64.fin 90, F64.fin 80, F64.fin 79, F64.fin 78]) ∧
      (Search offlineWorld nanTieResponse =
          some ⟨F64.fin 60, 0, 0, [("Danbooru", "https://danbooru.donmai.us/posts/0")]⟩ ∧
        (resolvedMatches offlineWorld (F64.fin 60) 0 nanTieResponse.results).map
            (fun e => e.2.Similarity) =
          [F64.fin 70, F64.nan, F64.fin 90, F64.fin 90]) := by
  decide

/-- C7 (amended): when `range` visits every group once, each URL emitted by
`Search` is the `fixed` URL of the group of one database index; when that
group has at most `maxInsertion` (12) resolved matches and none of their
similarities is NaN, it is, in provider order, the earliest of those that
reach the maximum similarity of the group: all resolved matches of the index
before it are strictly less similar, all after it at most as similar. -/
theorem Search_entry_is_earliest_index_group_maximum (w : World)
    (hperm : ∀ m, (w.rangeOrder m).Perm m) (resp : Response)
    (res : SaucenaoResult) (h : Search w resp = some res) (S U : String)
    (hmem : (S, U) ∈ res.SearchResult) :
    S = getDatabaseFromURL U ∧
      ∃ k,
        fixedURL w (indexGroup k (resolvedMatches w resp.minimum_similarity 0 resp.results)) =
            some U ∧
          ((indexGroup k (resolvedMatches w resp.minimum_similarity 0 resp.results)).length ≤
              maxInsertion →
            NaNFree (indexGroup k (resolvedMatches w resp.minimum_similarity 0 resp.results)) →
            ∃ before m after,
              indexGroup k (resolvedMatches w resp.minimum_similarity 0 resp.results) =
                  before ++ m :: after ∧
                m.URL = U ∧
                (∀ b ∈ before, F64.lt b.Similarity m.Similarity = true) ∧
                (∀ b ∈ after, F64.le b.Similarity m.Similarity = true)) := by
  obtain ⟨hS, k, hk⟩ := Search_entry_group w hperm resp res h S U hmem
  exact ⟨hS, k, hk, fun hlen hfree => fixedURL_is_earliest_maximum w _ U hk hlen hfree⟩

/-- Witness for C7 (amended): two matches of index 9 tied at similarity 90,
in the world with `sort.Sort` written out; the first of the two is emitted. -/
theorem Search_entry_is_earliest_index_group_maximum_witness :
    ∃ k before m after,
      indexGroup k (resolvedMatches pdqWorld tiedIndexResponse.minimum_similarity 0
          tiedIndexResponse.results) = before ++ m :: after ∧
        m.URL = "https://danbooru.donmai.us/posts/1" ∧
        (∀ b ∈ before, F64.lt b.Similarity m.Similarity = true) ∧
        (∀ b ∈ after, F64.le b.Similarity m.Similarity = true) := by
  obtain ⟨_, k, _, himp⟩ :=
    Search_entry_is_earliest_index_group_maximum pdqWorld (fun m => List.Perm.refl m)
      tiedIndexResponse
      ⟨F64.fin 60, 0, 0, [("Danbooru", "https://danbooru.donmai.us/posts/1")]⟩
      (by decide) "Danbooru" "https://danbooru.donmai.us/posts/1" (by decide)
  have hfree : ∀ e ∈ resolvedMatches pdqWorld tiedIndexResponse.minimum_similarity 0
      tiedIndexResponse.results, e.2.Similarity ≠ F64.nan := by decide
  have hlen : (resolvedMatches pdqWorld tiedIndexResponse.minimum_similarity 0
      tiedIndexResponse.results).length ≤ maxInsertion := by decide
  obtain ⟨before, m, after, hm⟩ :=
    himp (le_trans (indexGroup_length_le k _) hlen)
      (fun a ha => hfree (k, a) ((mem_indexGroup _ _ _).mp ha))
  exact ⟨k, before, m, after, hm⟩

/-! ## Lemmas on the string routines -/

theorem beginsWith_append (p s : List Char) : beginsWith p (p ++ s) = true := by
  induction p with
  | nil => rfl
  | cons a p ih => simp [beginsWith, ih]

theorem hasSubstr_of_beginsWith (sub s : List Char) (h : beginsWith sub s = true) :
    hasSubstr sub s = true := by
  cases s with
  | nil => simpa [hasSubstr] using h
  | cons c cs => simp [hasSubstr, h]

theorem matchPat_clash (ps : List Pat) :
    ∀ (known s : List Char), clash ps known = true → matchPat ps (known ++ s) = none := by
  induction ps with
  | nil => intro known s h; simp [clash] at h
  | cons p ps ih =>
    intro known s h
    cases known with
    | nil => simp [clash] at h
    | cons c cs =>
      simp only [clash, Bool.or_eq_true, Bool.not_eq_true'] at h
      simp only [List.cons_append, matchPat]
      cases hok : p.ok c with
      | false => simp
      | true =>
        rw [hok] at h
        simp only [if_true]
        exact ih cs s (by simpa using h)

theorem matchDigits_of_clash (shape : List Pat) (known s : List Char)
    (h : clash shape known = true) : matchDigits shape (known ++ s) = none := by
  simp [matchDigits, matchPat_clash shape known s h]

theorem replaceAllGo_drop (find : List Char → Option (List Char × Nat)) (s : List Char) :
    ∀ k, replaceAllGo find k s = replaceAllGo find 0 (s.drop k) := by
  induction s with
  | nil => intro k; cases k <;> simp [replaceAllGo]
  | cons c cs ih =>
    intro k
    cases k with
    | zero => rfl
    | succ k => simp only [replaceAllGo, List.drop_succ_cons]; exact ih k

theorem replaceAllGo_cons_none (find : List Char → Option (List Char × Nat)) (c : Char)
    (cs : List Char) (h : find (c :: cs) = none) :
    replaceAllGo find 0 (c :: cs) = c :: replaceAllGo find 0 cs := by
  simp [replaceAllGo, h]

theorem replaceAllGo_cons_some (find : List Char → Option (List Char × Nat)) (c : Char)
    (cs repl : List Char) (n : Nat) (h : find (c :: cs) = some (repl, n)) :
    replaceAllGo find 0 (c :: cs) = repl ++ replaceAllGo find 0 (cs.drop (n - 1)) := by
  simp only [replaceAllGo, h]
  rw [replaceAllGo_drop]

theorem replaceAllGo_known (shape : List Pat) (repl : List Char → List Char × Nat)
    (known s : List Char) (h : clashEverywhere shape known = true) :
    replaceAllGo (fun t => (matchDigits shape t).map repl) 0 (known ++ s) =
      known ++ replaceAllGo (fun t => (matchDigits shape t).map repl) 0 s := by
  induction known with
  | nil => rfl
  | cons c cs ih =>
    simp only [clashEverywhere, Bool.and_eq_true] at h
    have hnone : (fun t => (matchDigits shape t).map repl) (c :: (cs ++ s)) = none := by
      have := matchDigits_of_clash shape (c :: cs) s h.1
      simp only [List.cons_append] at this
      simp [this]
    rw [List.cons_append, replaceAllGo_cons_none _ _ _ hnone, ih h.2, List.cons_append]

theorem clash_lit_head (a c : Char) (ps : List Pat) (cs : List Char) (h : c ≠ a) :
    clash (Pat.lit a :: ps) (c :: cs) = true := by
  have : (a == c) = false := by
    simp only [beq_eq_false_iff_ne, ne_eq]
    exact fun e => h e.symm
  simp [clash, Pat.ok, this]

theorem clashEverywhere_of_ne_head (a : Char) (ps : List Pat) (known : List Char)
    (h : ∀ c ∈ known, c ≠ a) : clashEverywhere (Pat.lit a :: ps) known = true := by
  induction known with
  | nil => rfl
  | cons c cs ih =>
    simp only [clashEverywhere, Bool.and_eq_true]
    exact ⟨clash_lit_head a c ps cs (h c (List.mem_cons_self _ _)),
      ih (fun x hx => h x (List.mem_cons_of_mem _ hx))⟩

theorem legacyShape_cons : legacyShape = Pat.lit 'w' :: legacyShape.tail := by
  decide

theorem digit_ne (c a : Char) (hc : c.isDigit = true) (ha : a.isDigit = false) : c ≠ a := by
  intro e
  rw [e, ha] at hc
  cases hc

theorem rewriteLegacy_known (known s : List Char)
    (h : clashEverywhere legacyShape known = true) :
    rewriteLegacy (known ++ s) = known ++ rewriteLegacy s :=
  replaceAllGo_known legacyShape _ known s h

theorem rewriteLegacy_digits (ds s : List Char) (h : ∀ c ∈ ds, c.isDigit = true) :
    rewriteLegacy (ds ++ s) = ds ++ rewriteLegacy s := by
  apply rewriteLegacy_known
  rw [legacyShape_cons]
  exact clashEverywhere_of_ne_head _ _ _ (fun c hc => digit_ne c _ (h c hc) (by decide))

theorem stripPage_digits (ds s : List Char) (h : ∀ c ∈ ds, c.isDigit = true) :
    stripPage (ds ++ s) = ds ++ stripPage s := by
  apply replaceAllGo_known pageShape
  exact clashEverywhere_of_ne_head _ _ _ (fun c hc => digit_ne c _ (h c hc) (by decide))

theorem takeWhile_all (p : Char → Bool) (l : List Char) (h : ∀ c ∈ l, p c = true) :
    l.takeWhile p = l := by
  induction l with
  | nil => rfl
  | cons c cs ih =>
    rw [List.takeWhile_cons, h c (List.mem_cons_self _ _)]
    simp only [if_true]
    rw [ih (fun x hx => h x (List.mem_cons_of_mem _ hx))]

/-- The pattern `_p[0-9]+` removes a page suffix `_p<N>` at the end. -/
theorem stripPage_page_suffix (n : List Char) (hn : n ≠ []) (hd : ∀ c ∈ n, c.isDigit = true) :
    stripPage ('_' :: 'p' :: n) = [] := by
  have hm : pageMatch ('_' :: 'p' :: n) = some ([], 2 + n.length) := by
    simp [pageMatch, matchDigits, pageShape, matchPat, Pat.ok, takeWhile_all _ n hd, hn]
  unfold stripPage
  rw [replaceAllGo_cons_some _ _ _ _ _ hm]
  have : List.drop (2 + n.length - 1) ('p' :: n) = [] := by
    apply List.drop_eq_nil_of_le
    simp only [List.length_cons]
    omega
  rw [this]
  rfl

theorem takeWhile_append_stop (p : Char → Bool) (l r : List Char) (a : Char)
    (h : ∀ c ∈ l, p c = true) (ha : p a = false) : (l ++ a :: r).takeWhile p = l := by
  induction l with
  | nil => simp [List.takeWhile_cons, ha]
  | cons c cs ih =>
    rw [List.cons_append, List.takeWhile_cons, h c (List.mem_cons_self _ _)]
    simp only [if_true]
    rw [ih (fun x hx => h x (List.mem_cons_of_mem _ hx))]

theorem dropWhile_head_false (p : Char → Bool) (l : List Char)
    (h : ∀ c, l.head? = some c → p c = false) : l.dropWhile p = l := by
  cases l with
  | nil => rfl
  | cons c cs => rw [List.dropWhile_cons, h c rfl]; simp

/-- The function `path.Base` returns the text after the last slash when that
text is not empty. -/
theorem pathBase_after_slash (dir file : List Char) (hfile : file ≠ [])
    (hslash : ∀ c ∈ file, c ≠ '/') : pathBase (dir ++ '/' :: file) = file := by
  have hne : dir ++ '/' :: file ≠ [] := by simp
  have hrev : (dir ++ '/' :: file).reverse = file.reverse ++ '/' :: dir.reverse := by simp
  have hdrop : ((dir ++ '/' :: file).reverse.dropWhile (fun c => c == '/')) =
      (dir ++ '/' :: file).reverse := by
    apply dropWhile_head_false
    intro c hc
    rw [hrev] at hc
    have hmem : c ∈ file.reverse := by
      cases hfr : file.reverse with
      | nil => exact absurd (List.reverse_eq_nil_iff.mp hfr) hfile
      | cons x xs =>
        rw [hfr] at hc
        simp only [List.cons_append, List.head?_cons, Option.some.injEq] at hc
        rw [← hc]
        exact List.mem_cons_self _ _
    have := hslash c (List.mem_reverse.mp hmem)
    simpa using this
  unfold pathBase
  rw [if_neg hne]
  simp only [hdrop, List.reverse_reverse]
  have htake : (dir ++ '/' :: file).reverse.takeWhile (fun c => c != '/') = file.reverse := by
    rw [hrev]
    apply takeWhile_append_stop
    · intro c hc
      have := hslash c (List.mem_reverse.mp hc)
      simpa using this
    · simp
  rw [htake, List.reverse_reverse, if_neg hfile]

theorem extScan_dot (r t : List Char) (h : ∀ c ∈ r, c ≠ '/' ∧ c ≠ '.') :
    ∀ acc, extScan (r ++ '.' :: t) acc = '.' :: (r.reverse ++ acc) := by
  induction r with
  | nil => intro acc; simp [extScan]
  | cons c cs ih =>
    intro acc
    obtain ⟨h1, h2⟩ := h c (List.mem_cons_self _ _)
    rw [List.cons_append, extScan, if_neg h1, if_neg h2,
      ih (fun x hx => h x (List.mem_cons_of_mem _ hx))]
    simp

/-- The function `path.Ext` returns the text from the last dot on. -/
theorem pathExt_after_dot (stem ext : List Char) (h : ∀ c ∈ ext, c ≠ '/' ∧ c ≠ '.') :
    pathExt (stem ++ '.' :: ext) = '.' :: ext := by
  unfold pathExt
  have hrev : (stem ++ '.' :: ext).reverse = ext.reverse ++ '.' :: stem.reverse := by simp
  rw [hrev, extScan_dot _ _ (fun c hc => h c (List.mem_reverse.mp hc))]
  simp

theorem removeFirst_at_end (old stem : List Char) (a : Char) (t : List Char)
    (hold : old = a :: t) (h : ∀ c ∈ stem, c ≠ a) : removeFirst old (stem ++ old) = stem := by
  induction stem with
  | nil =>
    subst hold
    simp only [List.nil_append, removeFirst]
    have := beginsWith_append (a :: t) []
    simp only [List.append_nil] at this
    rw [this]
    simp
  | cons c cs ih =>
    have hc : c ≠ a := h c (List.mem_cons_self _ _)
    have hb : beginsWith old (c :: (cs ++ old)) = false := by
      subst hold
      have : (a == c) = false := by
        simp only [beq_eq_false_iff_ne, ne_eq]
        exact fun e => hc e.symm
      simp [beginsWith, this]
    rw [List.cons_append, removeFirst, hb]
    simp only [Bool.false_eq_true, if_false]
    rw [ih (fun x hx => h x (List.mem_cons_of_mem _ hx))]

/-! ## Theorems: `getPixivArtwork` on image URLs -/

theorem alphanum_ne (c : Char) (h : c.isAlphanum = true) : c ≠ '/' ∧ c ≠ '.' := by
  constructor <;>
  · intro e
    rw [e] at h
    revert h
    decide

theorem getPixivArtworkL_page_image (rest id n ext : List Char)
    (hid : ∀ c ∈ id, c.isDigit = true) (hn : n ≠ []) (hnd : ∀ c ∈ n, c.isDigit = true)
    (hext : ∀ c ∈ ext, c.isAlphanum = true) :
    getPixivArtworkL (pximgHost ++ rest ++ '/' :: (id ++ '_' :: 'p' :: n ++ '.' :: ext)) =
      artworksURL ++ id := by
  have hstem : ∀ c ∈ id ++ '_' :: 'p' :: n, c ≠ '/' ∧ c ≠ '.' := by
    intro c hc
    rcases List.mem_append.mp hc with h | h
    · exact ⟨digit_ne c _ (hid c h) (by decide), digit_ne c _ (hid c h) (by decide)⟩
    · rcases List.mem_cons.mp h with h | h
      · rw [h]; decide
      · rcases List.mem_cons.mp h with h | h
        · rw [h]; decide
        · exact ⟨digit_ne c _ (hnd c h) (by decide), digit_ne c _ (hnd c h) (by decide)⟩
  have hfile : id ++ '_' :: 'p' :: n ++ '.' :: ext = (id ++ '_' :: 'p' :: n) ++ '.' :: ext := by
    simp
  have hfile_ne : id ++ '_' :: 'p' :: n ++ '.' :: ext ≠ [] := by simp
  have hfile_slash : ∀ c ∈ id ++ '_' :: 'p' :: n ++ '.' :: ext, c ≠ '/' := by
    intro c hc
    rw [hfile] at hc
    rcases List.mem_append.mp hc with h | h
    · exact (hstem c h).1
    · rcases List.mem_cons.mp h with h | h
      · rw [h]; decide
      · exact (alphanum_ne c (hext c h)).1
  have hcontains : hasSubstr pximgHost
      (pximgHost ++ rest ++ '/' :: (id ++ '_' :: 'p' :: n ++ '.' :: ext)) = true := by
    rw [List.append_assoc]
    exact hasSubstr_of_beginsWith _ _ (beginsWith_append _ _)
  have hbase := pathBase_after_slash (pximgHost ++ rest) _ hfile_ne hfile_slash
  have hextn : pathExt (id ++ '_' :: 'p' :: n ++ '.' :: ext) = '.' :: ext := by
    rw [hfile]
    exact pathExt_after_dot _ _ (fun c hc => alphanum_ne c (hext c hc))
  have hremove : removeFirst ('.' :: ext) (id ++ '_' :: 'p' :: n ++ '.' :: ext) =
      id ++ '_' :: 'p' :: n := by
    rw [hfile]
    exact removeFirst_at_end _ _ '.' ext rfl (fun c hc => (hstem c hc).2)
  have hstrip : stripPage (id ++ '_' :: 'p' :: n) = id := by
    rw [stripPage_digits id _ hid, stripPage_page_suffix n hn hnd, List.append_nil]
  have hrewrite : rewriteLegacy (artworksURL ++ id) = artworksURL ++ id := by
    rw [rewriteLegacy_known artworksURL id (by decide)]
    have := rewriteLegacy_digits id [] hid
    have h0 : rewriteLegacy [] = [] := rfl
    simp only [List.append_nil] at this
    rw [this, h0, List.append_nil]
  unfold getPixivArtworkL
  have hc' : hasSubstr "https://i.pximg.net".data
      (pximgHost ++ rest ++ '/' :: (id ++ '_' :: 'p' :: n ++ '.' :: ext)) = true := hcontains
  simp only [hc', if_true, hbase, hextn, hremove, hstrip]
  exact hrewrite

/-- C6: for every URL `https://i.pximg.net<dirs>/<id>_p<N>.<ext>` with
`<dirs>` any text (such as `/img-original/img/2020/01/01`, or nothing),
`<id>` a string of decimal digits, `<N>` a non-empty string of decimal digits
and `<ext>` an alphanumeric extension, `getPixivArtwork` returns exactly
`https://www.pixiv.net/artworks/<id>` (in particular when `<id>` and `<ext>`
are non-empty, as the claim has them). -/
theorem getPixivArtwork_page_image (dirs id n ext : String)
    (hidd : ∀ c ∈ id.data, c.isDigit = true)
    (hn : n ≠ "") (hnd : ∀ c ∈ n.data, c.isDigit = true)
    (hexta : ∀ c ∈ ext.data, c.isAlphanum = true) :
    getPixivArtwork ("https://i.pximg.net" ++ dirs ++ "/" ++ id ++ "_p" ++ n ++ "." ++ ext) =
      "https://www.pixiv.net/artworks/" ++ id := by
  have hn' : n.data ≠ [] := fun e => hn (String.ext e)
  have h := getPixivArtworkL_page_image dirs.data id.data n.data ext.data hidd hn' hnd hexta
  have hdata : ("https://i.pximg.net" ++ dirs ++ "/" ++ id ++ "_p" ++ n ++ "." ++ ext).data =
      pximgHost ++ dirs.data ++ '/' :: (id.data ++ '_' :: 'p' :: n.data ++ '.' :: ext.data) := by
    simp [String.data_append, pximgHost]
  unfold getPixivArtwork
  rw [hdata, h]
  apply String.ext
  simp [String.data_append, artworksURL]

/-- Witness for C6: the two URLs of the scenario. -/
theorem getPixivArtwork_page_image_witness :
    getPixivArtwork "https://i.pximg.net/.../12345_p0.jpg" =
        "https://www.pixiv.net/artworks/12345" ∧
      getPixivArtwork "https://i.pximg.net/.../12345_p1.jpg" =
        "https://www.pixiv.net/artworks/12345" :=
  ⟨getPixivArtwork_page_image "/..." "12345" "0" "jpg" (by decide) (by decide) (by decide)
      (by decide),
    getPixivArtwork_page_image "/..." "12345" "1" "jpg" (by decide) (by decide) (by decide)
      (by decide)⟩

/-! ## Lemmas for the idempotence of `getPixivArtwork` -/

theorem matchPat_append (p q : List Pat) :
    ∀ s, matchPat (p ++ q) s = (matchPat p s).bind (matchPat q) := by
  induction p with
  | nil => intro s; simp [matchPat]
  | cons a p ih =>
    intro s
    cases s with
    | nil => simp [matchPat]
    | cons c cs =>
      simp only [List.cons_append, matchPat]
      split
      · exact ih cs
      · rfl

theorem matchDigits_eq_none_iff (shape : List Pat) (s : List Char) :
    matchDigits shape s = none ↔ matchPat (shape ++ [Pat.digit]) s = none := by
  rw [matchPat_append]
  unfold matchDigits
  cases matchPat shape s with
  | none => simp
  | some t =>
    cases t with
    | nil => simp [matchPat]
    | cons c t =>
      cases hc : c.isDigit <;> simp [matchPat, Pat.ok, List.takeWhile_cons, hc]

theorem legacyMatch_eq_none_iff (s : List Char) :
    legacyMatch s = none ↔ matchPat legacyFull s = none := by
  unfold legacyMatch legacyFull
  rw [Option.map_eq_none', matchDigits_eq_none_iff]

theorem legacyMatch_some (s repl : List Char) (n : Nat) (h : legacyMatch s = some (repl, n)) :
    ∃ ds, repl = artworksHead ++ ds ∧ ∀ c ∈ ds, c.isDigit = true := by
  unfold legacyMatch matchDigits at h
  cases hm : matchPat legacyShape s with
  | none => simp [hm] at h
  | some t =>
    simp only [hm] at h
    split at h
    · simp at h
    · simp only [Option.map_some', Option.some.injEq, Prod.mk.injEq] at h
      refine ⟨t.takeWhile Char.isDigit, h.1.symm, fun c hc => ?_⟩
      exact (List.mem_takeWhile_imp hc)

theorem rewriteLegacy_cons_none (c : Char) (cs : List Char) (h : legacyMatch (c :: cs) = none) :
    rewriteLegacy (c :: cs) = c :: rewriteLegacy cs :=
  replaceAllGo_cons_none legacyMatch c cs h

theorem rewriteLegacy_cons_some (c : Char) (cs repl : List Char) (n : Nat)
    (h : legacyMatch (c :: cs) = some (repl, n)) :
    rewriteLegacy (c :: cs) = repl ++ rewriteLegacy (cs.drop (n - 1)) :=
  replaceAllGo_cons_some legacyMatch c cs repl n h

/-- A pattern all of whose suffixes clash with the replacement text cannot
start matching because of a rewrite. -/
theorem matchPat_rewriteLegacy (p : List Pat) :
    suffixesClash p artworksHead = true →
      ∀ s, matchPat p s = none → matchPat p (rewriteLegacy s) = none := by
  induction p with
  | nil => intro _ s h; simp [matchPat] at h
  | cons q0 q ih =>
    intro hp s h
    simp only [suffixesClash, Bool.and_eq_true] at hp
    cases s with
    | nil => rfl
    | cons c cs =>
      cases hm : legacyMatch (c :: cs) with
      | none =>
        rw [rewriteLegacy_cons_none c cs hm]
        simp only [matchPat] at h ⊢
        cases hok : q0.ok c with
        | false => simp
        | true =>
          rw [hok] at h
          simp only [if_true] at h ⊢
          exact ih hp.2 cs h
      | some rn =>
        obtain ⟨repl, n⟩ := rn
        obtain ⟨ds, hds, _⟩ := legacyMatch_some _ _ _ hm
        rw [rewriteLegacy_cons_some c cs repl n hm, hds, List.append_assoc]
        exact matchPat_clash _ _ _ hp.1

theorem legacyFull_cons : legacyFull = Pat.lit 'w' :: legacyFull.tail := by
  decide

theorem legacyMatch_rewriteLegacy_tail (c : Char) (cs : List Char)
    (h : legacyMatch (c :: cs) = none) : legacyMatch (c :: rewriteLegacy cs) = none := by
  rw [legacyMatch_eq_none_iff] at h ⊢
  rw [legacyFull_cons] at h ⊢
  simp only [matchPat] at h ⊢
  cases hok : (Pat.lit 'w').ok c with
  | false => simp
  | true =>
    rw [hok] at h
    simp only [if_true] at h ⊢
    exact matchPat_rewriteLegacy _ (by decide) cs h

theorem rewriteLegacy_replacement (ds y : List Char) (h : ∀ c ∈ ds, c.isDigit = true) :
    rewriteLegacy (artworksHead ++ ds ++ y) = artworksHead ++ ds ++ rewriteLegacy y := by
  rw [List.append_assoc, rewriteLegacy_known artworksHead _ (by decide),
    rewriteLegacy_digits ds y h, List.append_assoc]

theorem rewriteLegacy_idempotent_aux :
    ∀ (n : Nat) (s : List Char), s.length ≤ n →
      rewriteLegacy (rewriteLegacy s) = rewriteLegacy s := by
  intro n
  induction n with
  | zero =>
    intro s hs
    have : s = [] := List.length_eq_zero.mp (Nat.le_zero.mp hs)
    subst this
    rfl
  | succ n ih =>
    intro s hs
    cases s with
    | nil => rfl
    | cons c cs =>
      have hcs : cs.length ≤ n := by
        simp only [List.length_cons] at hs
        omega
      cases hm : legacyMatch (c :: cs) with
      | none =>
        rw [rewriteLegacy_cons_none c cs hm,
          rewriteLegacy_cons_none c _ (legacyMatch_rewriteLegacy_tail c cs hm), ih cs hcs]
      | some rn =>
        obtain ⟨repl, k⟩ := rn
        obtain ⟨ds, hds, hdig⟩ := legacyMatch_some _ _ _ hm
        have hdrop : (cs.drop (k - 1)).length ≤ n := by
          rw [List.length_drop]
          omega
        rw [rewriteLegacy_cons_some c cs repl k hm, hds, rewriteLegacy_replacement ds _ hdig,
          ih _ hdrop]

/-- The rewrite of legacy member-illust URLs is idempotent. -/
theorem rewriteLegacy_idempotent (s : List Char) :
    rewriteLegacy (rewriteLegacy s) = rewriteLegacy s :=
  rewriteLegacy_idempotent_aux s.length s (Nat.le_refl _)

theorem artworksHead_cons : artworksHead = 'w' :: artworksHead.tail := by
  decide

theorem pximgHost_cons : pximgHost = 'h' :: pximgHost.tail := by
  decide

theorem artworksURL_cons : artworksURL = 'h' :: artworksURL.tail := by
  decide

/-- A text without the letter `w` that starts the rewritten text already
started the original. -/
theorem beginsWith_rewriteLegacy (p : List Char) :
    (∀ c ∈ p, c ≠ 'w') → ∀ s, beginsWith p (rewriteLegacy s) = true → beginsWith p s = true := by
  induction p with
  | nil => intro _ s _; rfl
  | cons a p ih =>
    intro hp s h
    have ha : a ≠ 'w' := hp a (List.mem_cons_self _ _)
    cases s with
    | nil => exact h
    | cons c cs =>
      cases hm : legacyMatch (c :: cs) with
      | none =>
        rw [rewriteLegacy_cons_none c cs hm] at h
        simp only [beginsWith, Bool.and_eq_true] at h ⊢
        exact ⟨h.1, ih (fun x hx => hp x (List.mem_cons_of_mem _ hx)) cs h.2⟩
      | some rn =>
        obtain ⟨repl, n⟩ := rn
        obtain ⟨ds, hds, _⟩ := legacyMatch_some _ _ _ hm
        rw [rewriteLegacy_cons_some c cs repl n hm, hds, artworksHead_cons] at h
        simp only [List.cons_append, beginsWith, Bool.and_eq_true, beq_iff_eq] at h
        exact absurd h.1 ha

theorem hasSubstr_skip (a : Char) (sub pre t : List Char) (h : ∀ c ∈ pre, c ≠ a) :
    hasSubstr (a :: sub) (pre ++ t) = hasSubstr (a :: sub) t := by
  induction pre with
  | nil => rfl
  | cons c cs ih =>
    have hc : (a == c) = false := by
      simp only [beq_eq_false_iff_ne, ne_eq]
      exact fun e => h c (List.mem_cons_self _ _) e.symm
    simp only [List.cons_append, hasSubstr, beginsWith, hc, Bool.false_and, Bool.false_or]
    exact ih (fun x hx => h x (List.mem_cons_of_mem _ hx))

theorem hasSubstr_cons (sub : List Char) (c : Char) (cs : List Char)
    (h : hasSubstr sub cs = true) : hasSubstr sub (c :: cs) = true := by
  simp [hasSubstr, h]

theorem hasSubstr_drop (sub : List Char) :
    ∀ (k : Nat) (s : List Char), hasSubstr sub (s.drop k) = true → hasSubstr sub s = true := by
  intro k
  induction k with
  | zero => intro s h; simpa using h
  | succ k ih =>
    intro s h
    cases s with
    | nil => simpa using h
    | cons c cs =>
      rw [List.drop_succ_cons] at h
      exact hasSubstr_cons _ _ _ (ih cs h)

theorem hasSubstr_rewriteLegacy_aux :
    ∀ (n : Nat) (s : List Char), s.length ≤ n →
      hasSubstr pximgHost (rewriteLegacy s) = true → hasSubstr pximgHost s = true := by
  intro n
  induction n with
  | zero =>
    intro s hs h
    have : s = [] := List.length_eq_zero.mp (Nat.le_zero.mp hs)
    subst this
    exact h
  | succ n ih =>
    intro s hs h
    cases s with
    | nil => exact h
    | cons c cs =>
      have hcs : cs.length ≤ n := by
        simp only [List.length_cons] at hs
        omega
      cases hm : legacyMatch (c :: cs) with
      | none =>
        have hrw := rewriteLegacy_cons_none c cs hm
        rw [hrw] at h
        simp only [hasSubstr, Bool.or_eq_true] at h
        rcases h with h | h
        · rw [← hrw] at h
          exact hasSubstr_of_beginsWith _ _
            (beginsWith_rewriteLegacy pximgHost (by decide) _ h)
        · exact hasSubstr_cons _ _ _ (ih cs hcs h)
      | some rn =>
        obtain ⟨repl, k⟩ := rn
        obtain ⟨ds, hds, hdig⟩ := legacyMatch_some _ _ _ hm
        have hdrop : (cs.drop (k - 1)).length ≤ n := by
          rw [List.length_drop]
          omega
        have hhead : ∀ x ∈ artworksHead, x ≠ 'h' := by decide
        have hpre : ∀ x ∈ artworksHead ++ ds, x ≠ 'h' := by
          intro x hx
          rcases List.mem_append.mp hx with h1 | h1
          · exact hhead x h1
          · exact digit_ne x _ (hdig x h1) (by decide)
        rw [rewriteLegacy_cons_some c cs repl k hm, hds, pximgHost_cons,
          hasSubstr_skip _ _ _ _ hpre, ← pximgHost_cons] at h
        exact hasSubstr_cons _ _ _ (hasSubstr_drop _ _ _ (ih _ hdrop h))

/-- The rewrite of legacy URLs never creates the Pixiv image host. -/
theorem hasSubstr_rewriteLegacy (s : List Char)
    (h : hasSubstr pximgHost (rewriteLegacy s) = true) : hasSubstr pximgHost s = true :=
  hasSubstr_rewriteLegacy_aux s.length s (Nat.le_refl _) h

theorem beginsWith_mem (p : List Char) :
    ∀ s, beginsWith p s = true → ∀ c ∈ p, c ∈ s := by
  induction p with
  | nil => intro s _ c hc; cases hc
  | cons a p ih =>
    intro s h c hc
    cases s with
    | nil => simp [beginsWith] at h
    | cons b s =>
      simp only [beginsWith, Bool.and_eq_true, beq_iff_eq] at h
      rcases List.mem_cons.mp hc with h1 | h1
      · rw [h1, h.1]; exact List.mem_cons_self _ _
      · exact List.mem_cons_of_mem _ (ih s h.2 c h1)

theorem hasSubstr_mem (sub : List Char) :
    ∀ s, hasSubstr sub s = true → ∀ c ∈ sub, c ∈ s := by
  intro s
  induction s with
  | nil => intro h c hc; exact beginsWith_mem sub [] (by simpa [hasSubstr] using h) c hc
  | cons b s ih =>
    intro h c hc
    simp only [hasSubstr, Bool.or_eq_true] at h
    rcases h with h | h
    · exact beginsWith_mem sub _ h c hc
    · exact List.mem_cons_of_mem _ (ih h c hc)

theorem pathBase_slash (path : List Char) :
    pathBase path = ['/'] ∨ ∀ c ∈ pathBase path, c ≠ '/' := by
  unfold pathBase
  split
  · right
    intro c hc
    rw [List.mem_singleton.mp hc]
    decide
  · simp only
    split
    · left; rfl
    · right
      intro c hc
      have := List.mem_takeWhile_imp (List.mem_reverse.mp hc)
      simpa using this

theorem removeFirst_sublist (old : List Char) : ∀ s, (removeFirst old s).Sublist s := by
  intro s
  induction s with
  | nil => exact List.Sublist.refl _
  | cons c cs ih =>
    unfold removeFirst
    split
    · exact List.drop_sublist _ _
    · exact List.Sublist.cons₂ c ih

theorem stripPage_sublist_aux (s : List Char) :
    ∀ k, (replaceAllGo pageMatch k s).Sublist s := by
  induction s with
  | nil => intro k; cases k <;> exact List.Sublist.refl _
  | cons c cs ih =>
    intro k
    cases k with
    | succ k => exact List.Sublist.cons c (ih k)
    | zero =>
      cases hm : pageMatch (c :: cs) with
      | none =>
        simp only [replaceAllGo, hm]
        exact List.Sublist.cons₂ c (ih 0)
      | some rn =>
        obtain ⟨repl, n⟩ := rn
        have hrepl : repl = [] := by
          unfold pageMatch at hm
          cases hd : matchDigits pageShape (c :: cs) with
          | none => simp [hd] at hm
          | some ds =>
            simp only [hd, Option.map_some', Option.some.injEq, Prod.mk.injEq] at hm
            exact hm.1.symm
        simp only [replaceAllGo, hm, hrepl, List.nil_append]
        exact List.Sublist.cons c (ih (n - 1))

/-- The id `getPixivArtwork` extracts has no slash, or is the single slash
that `path.Base` returns for a path of slashes. -/
theorem pixivID_slash (extURL : List Char) :
    stripPage (removeFirst (pathExt (pathBase extURL)) (pathBase extURL)) = ['/'] ∨
      ∀ c ∈ stripPage (removeFirst (pathExt (pathBase extURL)) (pathBase extURL)), c ≠ '/' := by
  rcases pathBase_slash extURL with h | h
  · left
    rw [h]
    decide
  · right
    intro c hc
    have h1 := (stripPage_sublist_aux _ 0).subset hc
    exact h c ((removeFirst_sublist _ _).subset h1)

theorem no_pximgHost_after_artworksURL (id : List Char)
    (h : id = ['/'] ∨ ∀ c ∈ id, c ≠ '/') : hasSubstr pximgHost (artworksURL ++ id) = false := by
  have hstart : beginsWith pximgHost (artworksURL ++ id) = false := by
    simp [pximgHost, artworksURL, beginsWith]
  have htail : hasSubstr pximgHost (artworksURL.tail ++ id) = hasSubstr pximgHost id := by
    rw [pximgHost_cons]
    exact hasSubstr_skip _ _ _ _ (by decide)
  have hid : hasSubstr pximgHost id = false := by
    rcases h with h | h
    · rw [h]
      decide
    · cases hh : hasSubstr pximgHost id with
      | false => rfl
      | true =>
        exact absurd rfl (h '/' (hasSubstr_mem _ _ hh '/' (by decide)))
  have e : artworksURL ++ id = 'h' :: (artworksURL.tail ++ id) := by
    rw [← List.cons_append, ← artworksURL_cons]
  have hsplit : hasSubstr pximgHost ('h' :: (artworksURL.tail ++ id)) =
      (beginsWith pximgHost ('h' :: (artworksURL.tail ++ id)) ||
        hasSubstr pximgHost (artworksURL.tail ++ id)) := rfl
  rw [e, hsplit, ← e, hstart, htail, hid]
  rfl

/-- The value of `extURL` after the first `if` of `getPixivArtwork`. -/
theorem getPixivArtworkL_no_pximgHost (extURL : List Char) :
    hasSubstr pximgHost (getPixivArtworkL extURL) = false := by
  cases hh : hasSubstr pximgHost (getPixivArtworkL extURL) with
  | false => rfl
  | true =>
    unfold getPixivArtworkL at hh
    have hh' := hasSubstr_rewriteLegacy _ hh
    by_cases hc : hasSubstr "https://i.pximg.net".data extURL = true
    · simp only [hc, if_true] at hh'
      have := no_pximgHost_after_artworksURL _ (pixivID_slash extURL)
      rw [show artworksURL = "https://www.pixiv.net/artworks/".data from rfl] at this
      rw [this] at hh'
      cases hh'
    · simp only [hc, if_false] at hh'
      exact absurd hh' hc

theorem getPixivArtworkL_of_no_host (extURL : List Char)
    (h : hasSubstr pximgHost extURL = false) :
    getPixivArtworkL extURL = rewriteLegacy extURL := by
  have h' : hasSubstr "https://i.pximg.net".data extURL = false := h
  unfold getPixivArtworkL
  simp only [h', Bool.false_eq_true, if_false]

theorem getPixivArtworkL_eq_rewriteLegacy (extURL : List Char) :
    ∃ v, getPixivArtworkL extURL = rewriteLegacy v :=
  ⟨_, rfl⟩

theorem getPixivArtworkL_idempotent (extURL : List Char) :
    getPixivArtworkL (getPixivArtworkL extURL) = getPixivArtworkL extURL := by
  rw [getPixivArtworkL_of_no_host _ (getPixivArtworkL_no_pximgHost extURL)]
  obtain ⟨v, hv⟩ := getPixivArtworkL_eq_rewriteLegacy extURL
  rw [hv]
  exact rewriteLegacy_idempotent v

/-! ## Theorems: idempotence of `getPixivArtwork` -/

/-- C4: `getPixivArtwork` is idempotent: applied to its own output it
returns that output. -/
theorem getPixivArtwork_idempotent (u : String) :
    getPixivArtwork (getPixivArtwork u) = getPixivArtwork u := by
  unfold getPixivArtwork
  rw [getPixivArtworkL_idempotent]

end Saucenao
